import Mathlib

/-
Verification of the hierarchical scene model (src/game/editor/model.py) of
the PygameTemplate repository.

The Python classes are shallowly embedded: the mutable EditorModel becomes a
record threaded explicitly through the operations, Python dicts become
association lists with Python-dict semantics (insertion order, update in
place, pop of an existing key), pygame.Vector2 coordinates become rationals,
and pygame.Rect becomes a record of integer left/top/width/height.  The
palette registry lives in src/game/editor/registry.py which is not part of
the sources given here; it is modelled from the spec (section 6) as an
abstract lookup returning an optional item descriptor.
-/

set_option maxHeartbeats 1000000

/-- Association-list lookup on the first matching key, mirroring
Python `dict.get(k)` / `k in d` on a dict represented in insertion order. -/
def alistGet {α β : Type} [DecidableEq α] : List (α × β) → α → Option β
  | [], _ => none
  | (k, v) :: rest, a => if k = a then some v else alistGet rest a

/-- Association-list update-or-append, mirroring Python `d[k] = v`:
an existing binding is updated in place, a new key is appended at the end. -/
def alistSet {α β : Type} [DecidableEq α] : List (α × β) → α → β → List (α × β)
  | [], a, b => [(a, b)]
  | (k, v) :: rest, a, b =>
    if k = a then (a, b) :: rest else (k, v) :: alistSet rest a b

/-- Association-list removal of the first binding of a key, mirroring
Python `d.pop(k, None)`: returns the removed value (if any) and the rest. -/
def alistPop {α β : Type} [DecidableEq α] : List (α × β) → α → Option β × List (α × β)
  | [], _ => (none, [])
  | (k, v) :: rest, a =>
    if k = a then (some v, rest)
    else
      let r := alistPop rest a
      (r.1, (k, v) :: r.2)

/-- The closed set of node kinds (`NodeKind = Literal["root", "entity", "environment"]`). -/
inductive NodeKind
  | root
  | entity
  | environment
deriving DecidableEq, Repr

/-- The kinds a palette item may have (`PaletteKind`, the spawnable kinds). -/
inductive PaletteKind
  | entity
  | environment
deriving DecidableEq, Repr

/-- Injection of palette kinds into node kinds (a spawned node stores the
palette kind it was spawned with). -/
def PaletteKind.toNodeKind : PaletteKind → NodeKind
  | .entity => NodeKind.entity
  | .environment => NodeKind.environment

/-- A 2-D vector (pygame.Vector2), with exact rational coordinates. -/
structure Vector2 where
  x : ℚ
  y : ℚ
deriving DecidableEq, Repr

/-- The payload capability used by the model: an optional mutable position
and a radius (the Python code reads `getattr(payload, "radius", 0.0)`, so a
payload without the attribute is a payload with radius 0). -/
structure Payload where
  pos : Option Vector2
  radius : ℚ
deriving DecidableEq, Repr

/-- A tree element of the scene model (class Node of model.py). -/
structure Node where
  id : Nat
  kind : NodeKind
  name : String
  base_name : String
  payload : Option Payload
  parent : Option Nat
  children : List Nat
deriving DecidableEq, Repr

/-- `Node.position`: the payload position if the payload exists and has one. -/
def Node.position (n : Node) : Option Vector2 :=
  match n.payload with
  | none => none
  | some p => p.pos

/-- `Node.radius`: the payload radius, or 0 without a payload. -/
def Node.radius (n : Node) : ℚ :=
  match n.payload with
  | none => 0
  | some p => p.radius

/-- A palette item descriptor: display name and payload factory. -/
structure PaletteItem where
  name : String
  factory : Vector2 → Payload

/-- Modelled from the spec: the palette registry
(src/game/editor/registry.py, not among the given sources) supplies
`get_item(kind, index) -> optional item descriptor` with a display name and
a factory building a payload object from a spawn position (spec sections 2
and 6). -/
structure PaletteRegistry where
  get_item : PaletteKind → Nat → Option PaletteItem

/-- The scene model state (class EditorModel of model.py): node table in
insertion order, creation-order list, per-base-name label counters, id
allocator, root id and current selection. -/
structure EditorModel where
  registry : PaletteRegistry
  nodes : List (Nat × Node)
  order : List Nat
  label_counts : List (String × Nat)
  next_id : Nat
  root_id : Nat
  selected_id : Option Nat

/-- The root node built by `EditorModel._create_root`. -/
def sceneRoot : Node :=
  { id := 0, kind := NodeKind.root, name := "Scene Root", base_name := "Scene",
    payload := none, parent := none, children := [] }

/-- `EditorModel.__init__`: empty table except the root, empty order list,
empty label counters, id allocator at 1, nothing selected. -/
def EditorModel.init (registry : PaletteRegistry) : EditorModel :=
  { registry := registry, nodes := [(0, sceneRoot)], order := [],
    label_counts := [], next_id := 1, root_id := 0, selected_id := none }

/-- `EditorModel._parent_allows`: the candidate parent must exist, and the
eligibility table maps entity to environment parents and environment to
root-or-entity parents. -/
def EditorModel.parent_allows (m : EditorModel) (parent_id : Nat) (child_kind : PaletteKind) : Bool :=
  match alistGet m.nodes parent_id with
  | none => false
  | some parent =>
    match child_kind with
    | .entity => parent.kind == NodeKind.environment
    | .environment => parent.kind == NodeKind.root || parent.kind == NodeKind.entity

/-- The candidate loop of `EditorModel._resolve_parent`: skip absent
candidates, return the first one the eligibility test accepts. -/
def resolveFrom (m : EditorModel) (child_kind : PaletteKind) : List (Option Nat) → Option Nat
  | [] => none
  | none :: rest => resolveFrom m child_kind rest
  | some c :: rest =>
    if m.parent_allows c child_kind then some c else resolveFrom m child_kind rest

/-- `EditorModel._resolve_parent`: candidates are the parent hint, then the
current selection when it differs from the hint, then the root. -/
def EditorModel.resolve_parent (m : EditorModel) (child_kind : PaletteKind) (parent_hint : Option Nat) : Option Nat :=
  resolveFrom m child_kind
    ([parent_hint]
      ++ (if m.selected_id = parent_hint then [] else [m.selected_id])
      ++ [some m.root_id])

/-- `EditorModel._make_label`: read the per-base counter (default 0), bump
it, and suffix the label with the new count when it is not the first use. -/
def makeLabel (counts : List (String × Nat)) (base : String) : String × List (String × Nat) :=
  let count := (alistGet counts base).getD 0
  (if count = 0 then base else base ++ " #" ++ toString (count + 1),
   alistSet counts base (count + 1))

/-- `EditorModel._attach_child`: append the child id to the parent's
children list when the parent exists. -/
def attachChild (nodes : List (Nat × Node)) (parent_id child_id : Nat) : List (Nat × Node) :=
  match alistGet nodes parent_id with
  | none => nodes
  | some parent =>
    alistSet nodes parent_id { parent with children := parent.children ++ [child_id] }

/-- `EditorModel.spawn_from_palette`: look the item up, resolve the parent,
build payload and label, insert the node, record creation order, attach to
the parent, bump the id allocator and select the new node.  Failure returns
no node and the unchanged model. -/
def EditorModel.spawn_from_palette (m : EditorModel) (kind : PaletteKind) (idx : Nat) (position : Int × Int) (parent_hint : Option Nat) : Option Node × EditorModel :=
  match m.registry.get_item kind idx with
  | none => (none, m)
  | some item =>
    match m.resolve_parent kind parent_hint with
    | none => (none, m)
    | some parent_id =>
      let payload := item.factory ⟨(position.1 : ℚ), (position.2 : ℚ)⟩
      let made := makeLabel m.label_counts item.name
      let node : Node :=
        { id := m.next_id, kind := kind.toNodeKind, name := made.1,
          base_name := item.name, payload := some payload,
          parent := some parent_id, children := [] }
      let nodes1 := alistSet m.nodes node.id node
      let nodes2 := attachChild nodes1 parent_id node.id
      (some node,
       { m with nodes := nodes2, order := m.order ++ [node.id],
                label_counts := made.2, next_id := m.next_id + 1,
                selected_id := some node.id })

/-- `EditorModel.select_node`: clear the selection on an absent, unknown or
root id, otherwise select the id. -/
def EditorModel.select_node (m : EditorModel) (node_id : Option Nat) : EditorModel :=
  match node_id with
  | none => { m with selected_id := none }
  | some nid =>
    if (alistGet m.nodes nid).isNone then { m with selected_id := none }
    else if nid = m.root_id then { m with selected_id := none }
    else { m with selected_id := some nid }

/-- `EditorModel.iter_drawable_nodes`: the nodes with a payload, in creation
order (ids absent from the table are skipped). -/
def EditorModel.iter_drawable_nodes (m : EditorModel) : List Node :=
  m.order.filterMap (fun nid =>
    match alistGet m.nodes nid with
    | none => none
    | some node =>
      match node.payload with
      | none => none
      | some _ => some node)

/-- The scanning loop of `EditorModel.select_at_position`: accumulate the
id and squared distance of the best (strictly closer) positioned node. -/
def selectScan (mouse : Int × Int) : List Node → Option Nat × Option ℚ → Option Nat × Option ℚ
  | [], acc => acc
  | node :: rest, acc =>
    match node.position with
    | none => selectScan mouse rest acc
    | some pos =>
      let dx : ℚ := (mouse.1 : ℚ) - pos.x
      let dy : ℚ := (mouse.2 : ℚ) - pos.y
      let d2 := dx * dx + dy * dy
      match acc.2 with
      | none => selectScan mouse rest (some node.id, some d2)
      | some best_d2 =>
        if d2 < best_d2 then selectScan mouse rest (some node.id, some d2)
        else selectScan mouse rest acc

/-- `EditorModel.select_at_position`: scan the drawable nodes for the
closest positioned one, select it (or clear), and return its id. -/
def EditorModel.select_at_position (m : EditorModel) (mouse_pos : Int × Int) : Option Nat × EditorModel :=
  let best := selectScan mouse_pos m.iter_drawable_nodes (none, none)
  (best.1, m.select_node best.1)

/-- pygame.Rect as used by `move_selected_within`: integer left/top/width/
height with derived right and bottom edges. -/
structure Rect where
  left : Int
  top : Int
  width : Int
  height : Int
deriving DecidableEq, Repr

/-- The right edge of a rect. -/
def Rect.right (r : Rect) : Int := r.left + r.width

/-- The bottom edge of a rect. -/
def Rect.bottom (r : Rect) : Int := r.top + r.height

/-- `EditorModel.move_selected_within`: no-op without a selected node with a
positioned payload; otherwise clamp each axis of the desired position with
`max(low, min(high, desired))` where low/high are the rect edges inset by
the node's radius, and write the result into the payload position. -/
def EditorModel.move_selected_within (m : EditorModel) (canvas_rect : Rect) (desired : Vector2) : EditorModel :=
  match m.selected_id with
  | none => m
  | some sid =>
    match alistGet m.nodes sid with
    | none => m
    | some node =>
      match node.payload with
      | none => m
      | some payload =>
        match payload.pos with
        | none => m
        | some _ =>
          let radius := node.radius
          let left : ℚ := (canvas_rect.left : ℚ) + radius
          let right : ℚ := (canvas_rect.right : ℚ) - radius
          let top : ℚ := (canvas_rect.top : ℚ) + radius
          let bottom : ℚ := (canvas_rect.bottom : ℚ) - radius
          let newPos : Vector2 :=
            ⟨max left (min right desired.x), max top (min bottom desired.y)⟩
          { m with nodes :=
              (alistSet m.nodes sid
                { node with payload := some { payload with pos := some newPos } }) }

/-- `EditorModel._remove_subtree`, with explicit fuel standing in for the
Python recursion (the callers pass the table size, which suffices because
every productive call pops one table entry before recursing): pop the node,
recurse into its children, detach the node from a still-present parent, and
drop it from the creation-order list. -/
def removeSubtree : Nat → EditorModel → Nat → EditorModel
  | 0, m, _ => m
  | fuel + 1, m, node_id =>
    match alistPop m.nodes node_id with
    | (none, _) => m
    | (some node, nodes1) =>
      let m1 := { m with nodes := nodes1 }
      let m2 := node.children.foldl (fun acc c => removeSubtree fuel acc c) m1
      let m3 :=
        match node.parent with
        | none => m2
        | some pid =>
          match alistGet m2.nodes pid with
          | none => m2
          | some parent =>
            { m2 with nodes :=
                (alistSet m2.nodes pid
                  { parent with children := parent.children.filter (fun cid => cid != node_id) }) }
      { m3 with order := m3.order.filter (fun nid => nid != node_id) }

/-- `EditorModel.delete_selected`: no-op without a valid selection;
otherwise remove the selected subtree, then select the deleted node's
original parent when it survives and is not the root, else the last
creation-order entry, else nothing. -/
def EditorModel.delete_selected (m : EditorModel) : EditorModel :=
  match m.selected_id with
  | none => m
  | some sid =>
    match alistGet m.nodes sid with
    | none => m
    | some node =>
      let parent_id := node.parent
      let m1 := removeSubtree m.nodes.length m sid
      let keepParent :=
        match parent_id with
        | some pid => (alistGet m1.nodes pid).isSome && (pid != m.root_id)
        | none => false
      let sel :=
        if keepParent then parent_id
        else
          match m1.order.getLast? with
          | some lastid => some lastid
          | none => none
      { m1 with selected_id := sel }

/-- Membership of an id in the subtree rooted at `r` inside a node table:
`r` itself, and transitively every child of a member present in the table. -/
inductive Desc (tbl : List (Nat × Node)) (r : Nat) : Nat → Prop
  | refl : Desc tbl r r
  | step {p : Nat} {n : Node} {c : Nat} :
      Desc tbl r p → alistGet tbl p = some n → c ∈ n.children → Desc tbl r c

/-! ### Association-list lemmas -/

/-- The keys of an association list. -/
def alistKeys {α β : Type} (d : List (α × β)) : List α := d.map Prod.fst

theorem alistGet_eq_none {α β : Type} [DecidableEq α] (d : List (α × β)) (a : α) :
    alistGet d a = none ↔ a ∉ alistKeys d := by
  induction d with
  | nil => simp [alistGet, alistKeys]
  | cons p rest ih =>
    obtain ⟨k, v⟩ := p
    by_cases h : k = a
    · subst h
      simp [alistGet, alistKeys]
    · simp only [alistGet, alistKeys, List.map_cons, List.mem_cons, if_neg h]
      rw [ih]
      constructor
      · rintro hrest (hka | hmem)
        · exact h hka.symm
        · exact hrest hmem
      · intro hall hmem
        exact hall (Or.inr hmem)

theorem alistGet_mem {α β : Type} [DecidableEq α] {d : List (α × β)} {a : α} {v : β}
    (h : alistGet d a = some v) : (a, v) ∈ d := by
  induction d with
  | nil => simp [alistGet] at h
  | cons p rest ih =>
    obtain ⟨k, w⟩ := p
    by_cases hk : k = a
    · subst hk
      simp [alistGet] at h
      simp [h]
    · simp [alistGet, hk] at h
      exact List.mem_cons_of_mem _ (ih h)

theorem alistGet_isSome_iff_mem {α β : Type} [DecidableEq α] (d : List (α × β)) (a : α) :
    (alistGet d a).isSome ↔ a ∈ alistKeys d := by
  rcases h : alistGet d a with _ | v
  · simp [(alistGet_eq_none d a).mp h]
  · have := alistGet_mem h
    simp only [Option.isSome_some, true_iff]
    exact List.mem_map_of_mem Prod.fst this

theorem alistKeys_cons {α β : Type} (p : α × β) (d : List (α × β)) :
    alistKeys (p :: d) = p.1 :: alistKeys d := rfl

theorem mem_alistGet {α β : Type} [DecidableEq α] {d : List (α × β)} {a : α} {v : β}
    (hnd : (alistKeys d).Nodup) (h : (a, v) ∈ d) : alistGet d a = some v := by
  induction d with
  | nil => simp at h
  | cons p rest ih =>
    obtain ⟨k, w⟩ := p
    rw [alistKeys_cons, List.nodup_cons] at hnd
    rcases List.mem_cons.mp h with h1 | h1
    · injection h1 with h1a h1b
      subst h1a
      subst h1b
      simp [alistGet]
    · have hka : ¬ k = a := by
        intro he
        apply hnd.1
        rw [he]
        exact List.mem_map.mpr ⟨(a, v), h1, rfl⟩
      simp only [alistGet, if_neg hka]
      exact ih hnd.2 h1

theorem alistGet_set_eq {α β : Type} [DecidableEq α] (d : List (α × β)) (a : α) (b : β) :
    alistGet (alistSet d a b) a = some b := by
  induction d with
  | nil => simp [alistGet, alistSet]
  | cons p rest ih =>
    obtain ⟨k, v⟩ := p
    by_cases h : k = a
    · simp [alistSet, alistGet, h]
    · simp [alistSet, alistGet, h, ih]

theorem alistGet_set_ne {α β : Type} [DecidableEq α] (d : List (α × β)) (a a' : α) (b : β)
    (h : a' ≠ a) : alistGet (alistSet d a b) a' = alistGet d a' := by
  induction d with
  | nil =>
    have h1 : ¬ a = a' := fun he => h he.symm
    simp [alistSet, alistGet, h1]
  | cons p rest ih =>
    obtain ⟨k, v⟩ := p
    by_cases hk : k = a
    · subst hk
      have h1 : ¬ k = a' := fun he => h (he.symm.trans rfl)
      simp [alistSet, alistGet, h1]
    · by_cases hk' : k = a'
      · subst hk'
        simp [alistSet, alistGet, hk]
      · simp [alistSet, alistGet, hk, hk', ih]

theorem alistKeys_set {α β : Type} [DecidableEq α] (d : List (α × β)) (a : α) (b : β) :
    alistKeys (alistSet d a b) =
      if a ∈ alistKeys d then alistKeys d else alistKeys d ++ [a] := by
  induction d with
  | nil => simp [alistSet, alistKeys]
  | cons p rest ih =>
    obtain ⟨k, v⟩ := p
    by_cases h : k = a
    · subst h
      simp [alistSet, alistKeys_cons]
    · have hne : ¬ a = k := fun he => h he.symm
      simp only [alistSet, if_neg h, alistKeys_cons, ih, List.mem_cons, hne, false_or]
      by_cases hm : a ∈ alistKeys rest
      · rw [if_pos hm, if_pos hm]
      · rw [if_neg hm, if_neg hm, List.cons_append]

theorem alistKeys_set_of_mem {α β : Type} [DecidableEq α] {d : List (α × β)} {a : α} (b : β)
    (h : a ∈ alistKeys d) : alistKeys (alistSet d a b) = alistKeys d := by
  rw [alistKeys_set, if_pos h]

theorem alistSet_nodup {α β : Type} [DecidableEq α] {d : List (α × β)} {a : α} {b : β}
    (hnd : (alistKeys d).Nodup) : (alistKeys (alistSet d a b)).Nodup := by
  rw [alistKeys_set]
  by_cases h : a ∈ alistKeys d
  · simpa [h]
  · rw [if_neg h]
    refine List.Nodup.append hnd (List.nodup_singleton a) ?_
    intro x hx hx2
    rw [List.mem_singleton] at hx2
    subst hx2
    exact h hx

theorem alistPop_fst {α β : Type} [DecidableEq α] (d : List (α × β)) (a : α) :
    (alistPop d a).1 = alistGet d a := by
  induction d with
  | nil => rfl
  | cons p rest ih =>
    obtain ⟨k, v⟩ := p
    by_cases h : k = a <;> simp [alistPop, alistGet, h, ih]

theorem alistPop_snd_sublist {α β : Type} [DecidableEq α] (d : List (α × β)) (a : α) :
    (alistPop d a).2.Sublist d := by
  induction d with
  | nil => simp [alistPop]
  | cons p rest ih =>
    obtain ⟨k, v⟩ := p
    by_cases h : k = a
    · simp [alistPop, h]
    · simpa [alistPop, h] using ih

theorem alistPop_none {α β : Type} [DecidableEq α] {d : List (α × β)} {a : α}
    (h : alistGet d a = none) : (alistPop d a).2 = d := by
  induction d with
  | nil => rfl
  | cons p rest ih =>
    obtain ⟨k, v⟩ := p
    by_cases hk : k = a
    · simp [alistGet, hk] at h
    · simp only [alistGet, if_neg hk] at h
      simp [alistPop, hk, ih h]

theorem alistPop_length {α β : Type} [DecidableEq α] {d : List (α × β)} {a : α} {v : β}
    (h : alistGet d a = some v) : (alistPop d a).2.length + 1 = d.length := by
  induction d with
  | nil => simp [alistGet] at h
  | cons p rest ih =>
    obtain ⟨k, w⟩ := p
    by_cases hk : k = a
    · simp [alistPop, hk]
    · simp only [alistGet, if_neg hk] at h
      simp [alistPop, hk, ih h]

theorem alistGet_pop_ne {α β : Type} [DecidableEq α] (d : List (α × β)) (a a' : α)
    (h : a' ≠ a) : alistGet (alistPop d a).2 a' = alistGet d a' := by
  induction d with
  | nil => rfl
  | cons p rest ih =>
    obtain ⟨k, v⟩ := p
    by_cases hk : k = a
    · subst hk
      have h1 : ¬ k = a' := fun he => h (he.symm.trans rfl)
      simp [alistPop, alistGet, h1]
    · by_cases hk' : k = a'
      · simp [alistPop, alistGet, hk, hk', h]
      · simp [alistPop, alistGet, hk, hk', ih]

theorem alistGet_pop_self {α β : Type} [DecidableEq α] {d : List (α × β)} {a : α}
    (hnd : (alistKeys d).Nodup) : alistGet (alistPop d a).2 a = none := by
  induction d with
  | nil => rfl
  | cons p rest ih =>
    obtain ⟨k, v⟩ := p
    rw [alistKeys_cons, List.nodup_cons] at hnd
    by_cases hk : k = a
    · subst hk
      simp only [alistPop, if_pos rfl]
      rw [alistGet_eq_none]
      exact hnd.1
    · simp [alistPop, alistGet, hk, ih hnd.2]

theorem alistSet_length {α β : Type} [DecidableEq α] {d : List (α × β)} {a : α} {v : β}
    (b : β) (h : alistGet d a = some v) : (alistSet d a b).length = d.length := by
  induction d with
  | nil => simp [alistGet] at h
  | cons p rest ih =>
    obtain ⟨k, w⟩ := p
    by_cases hk : k = a
    · simp [alistSet, hk]
    · simp only [alistGet, if_neg hk] at h
      simp [alistSet, hk, ih h]

theorem alistSet_mem {α β : Type} [DecidableEq α] {d : List (α × β)} {a : α} {b : β}
    {p : α × β} (h : p ∈ alistSet d a b) : p = (a, b) ∨ p ∈ d := by
  induction d with
  | nil => simpa [alistSet] using h
  | cons q rest ih =>
    obtain ⟨k, v⟩ := q
    by_cases hk : k = a
    · rw [alistSet, if_pos hk] at h
      rcases List.mem_cons.mp h with h1 | h1
      · exact Or.inl h1
      · exact Or.inr (List.mem_cons_of_mem _ h1)
    · rw [alistSet, if_neg hk] at h
      rcases List.mem_cons.mp h with h1 | h1
      · exact Or.inr (h1 ▸ List.mem_cons_self _ _)
      · rcases ih h1 with h2 | h2
        · exact Or.inl h2
        · exact Or.inr (List.mem_cons_of_mem _ h2)

theorem mem_alistSet_of_ne {α β : Type} [DecidableEq α] {d : List (α × β)} {a : α} {b : β}
    {p : α × β} (h : p ∈ d) (hne : p.1 ≠ a) : p ∈ alistSet d a b := by
  induction d with
  | nil => simp at h
  | cons q rest ih =>
    obtain ⟨k, v⟩ := q
    by_cases hk : k = a
    · rw [alistSet, if_pos hk]
      rcases List.mem_cons.mp h with h1 | h1
      · exfalso
        apply hne
        rw [h1]
        exact hk
      · exact List.mem_cons_of_mem _ h1
    · rw [alistSet, if_neg hk]
      rcases List.mem_cons.mp h with h1 | h1
      · exact h1 ▸ List.mem_cons_self _ _
      · exact List.mem_cons_of_mem _ (ih h1)

theorem alistPop_mem {α β : Type} [DecidableEq α] {d : List (α × β)} {a : α}
    {p : α × β} (h : p ∈ (alistPop d a).2) : p ∈ d :=
  (alistPop_snd_sublist d a).mem h

/-! ### Fields a subtree removal never touches -/

/-- Equality of the model fields that subtree removal leaves alone. -/
def MiscEq (a b : EditorModel) : Prop :=
  a.registry = b.registry ∧ a.label_counts = b.label_counts ∧
    a.next_id = b.next_id ∧ a.root_id = b.root_id ∧ a.selected_id = b.selected_id

theorem MiscEq.refl (m : EditorModel) : MiscEq m m := ⟨rfl, rfl, rfl, rfl, rfl⟩

theorem MiscEq.trans {a b c : EditorModel} (h1 : MiscEq a b) (h2 : MiscEq b c) : MiscEq a c :=
  ⟨h1.1.trans h2.1, h1.2.1.trans h2.2.1, h1.2.2.1.trans h2.2.2.1,
   h1.2.2.2.1.trans h2.2.2.2.1, h1.2.2.2.2.trans h2.2.2.2.2⟩

theorem Desc_le {tbl : List (Nat × Node)} {r k : Nat}
    (hup : ∀ p ∈ tbl, ∀ c ∈ p.2.children, p.1 < c) (h : Desc tbl r k) : r ≤ k := by
  induction h with
  | refl => exact Nat.le_refl r
  | step hd hget hc ih =>
    exact Nat.le_of_lt (Nat.lt_of_le_of_lt ih (hup _ (alistGet_mem hget) _ hc))

theorem Desc_trans {tbl : List (Nat × Node)} {a b k : Nat}
    (h1 : Desc tbl a b) (h2 : Desc tbl b k) : Desc tbl a k := by
  induction h2 with
  | refl => exact h1
  | step hd hget hc ih => exact Desc.step ih hget hc

theorem Desc_head {tbl : List (Nat × Node)} {r k : Nat} (h : Desc tbl r k) :
    k = r ∨ ∃ n, alistGet tbl r = some n ∧ ∃ c ∈ n.children, Desc tbl c k := by
  induction h with
  | refl => exact Or.inl rfl
  | step hd hget hc ih =>
    rcases ih with h1 | ⟨nr, hr, c0, hc0, hdc⟩
    · subst h1
      exact Or.inr ⟨_, hget, _, hc, Desc.refl⟩
    · exact Or.inr ⟨nr, hr, c0, hc0, Desc.step hdc hget hc⟩

theorem Desc_of_child {tbl : List (Nat × Node)} {r k : Nat} {n : Node} {c : Nat}
    (hget : alistGet tbl r = some n) (hc : c ∈ n.children) (h : Desc tbl c k) :
    Desc tbl r k :=
  Desc_trans (Desc.step Desc.refl hget hc) h

/-- Subtrees do not change when the table changes only outside the subtree:
if the new table agrees with the old one on every present subtree member and
otherwise only drops entries, the subtree relation is the same. -/
theorem Desc_iff_stable {tbl tbl' : List (Nat × Node)} {r : Nat}
    (hpt : ∀ k, alistGet tbl' k = alistGet tbl k ∨ alistGet tbl' k = none)
    (hpre : ∀ k, Desc tbl r k → (alistGet tbl k).isSome →
      alistGet tbl' k = alistGet tbl k) :
    ∀ k, Desc tbl' r k ↔ Desc tbl r k := by
  intro k
  constructor
  · intro h
    induction h with
    | refl => exact Desc.refl
    | step hd hget hc ih =>
      rcases hpt _ with h1 | h1
      · exact Desc.step ih (h1.symm.trans hget) hc
      · rw [h1] at hget
        exact Option.noConfusion hget
  · intro h
    induction h with
    | refl => exact Desc.refl
    | step hd hget hc ih =>
      have h1 := hpre _ hd (by simp [hget])
      exact Desc.step ih (h1.trans hget) hc

/-- In a forest (children lists with back-pointers to a unique parent), two
subtrees containing a common present node are comparable. -/
theorem Desc_comparable {tbl : List (Nat × Node)}
    (hcb : ∀ p ∈ tbl, ∀ c ∈ p.2.children,
      alistGet tbl c = none ∨ ∃ cn, alistGet tbl c = some cn ∧ cn.parent = some p.1) :
    ∀ {a k : Nat}, Desc tbl a k → ∀ (b : Nat), Desc tbl b k →
      (alistGet tbl k).isSome → Desc tbl a b ∨ Desc tbl b a := by
  intro a k h
  induction h with
  | refl =>
    intro b hb _
    exact Or.inr hb
  | step hd hget hc ih =>
    intro b hb hpres
    cases hb with
    | refl => exact Or.inl (Desc.step hd hget hc)
    | step hd' hget' hc' =>
      rcases hcb _ (alistGet_mem hget) _ hc with h1 | ⟨cn, hcn, hpar⟩
      · rw [h1] at hpres
        exact absurd hpres (by simp)
      rcases hcb _ (alistGet_mem hget') _ hc' with h2 | ⟨cn', hcn', hpar'⟩
      · rw [h2] at hpres
        exact absurd hpres (by simp)
      have hcc : cn = cn' := by
        have h3 := hcn.symm.trans hcn'
        injection h3
      dsimp only at hpar hpar'
      have hpq := hpar.symm.trans (hcc ▸ hpar')
      injection hpq with hpq
      rw [← hpq] at hd'
      exact ih b hd' (by simp [hget])

/-! ### Table well-formedness used by the removal proof -/

/-- The table facts the subtree-removal proof threads through recursive
calls: unique keys, children with strictly larger ids, children that are
either absent (already removed) or point back to their unique parent, and
duplicate-free children lists. -/
structure TblInv (tbl : List (Nat × Node)) : Prop where
  nodup : (alistKeys tbl).Nodup
  childUp : ∀ p ∈ tbl, ∀ c ∈ p.2.children, p.1 < c
  childCB : ∀ p ∈ tbl, ∀ c ∈ p.2.children,
    alistGet tbl c = none ∨ ∃ cn, alistGet tbl c = some cn ∧ cn.parent = some p.1
  childNodup : ∀ p ∈ tbl, p.2.children.Nodup

theorem TblInv_pop {tbl : List (Nat × Node)} (h : TblInv tbl) (r : Nat) :
    TblInv (alistPop tbl r).2 := by
  have hsub := alistPop_snd_sublist tbl r
  refine ⟨List.Nodup.sublist (hsub.map Prod.fst) h.nodup, ?_, ?_, ?_⟩
  · intro p hp c hc
    exact h.childUp p (alistPop_mem hp) c hc
  · intro p hp c hc
    by_cases hcr : c = r
    · subst hcr
      exact Or.inl (alistGet_pop_self h.nodup)
    · rcases h.childCB p (alistPop_mem hp) c hc with h1 | ⟨cn, hcn, hpar⟩
      · exact Or.inl ((alistGet_pop_ne tbl r c hcr).trans h1)
      · exact Or.inr ⟨cn, (alistGet_pop_ne tbl r c hcr).trans hcn, hpar⟩
  · intro p hp
    exact h.childNodup p (alistPop_mem hp)

/-- A node cannot lie strictly inside the subtree of a sibling: its
back-pointer goes to the removed pivot, which is absent from the table. -/
theorem no_desc_between_siblings {tbl : List (Nat × Node)} (hI : TblInv tbl)
    {r c c' : Nat} (h : Desc tbl c c') (hne : c' ≠ c)
    (hpres : (alistGet tbl c').isSome)
    (hc'r : ∀ cn, alistGet tbl c' = some cn → cn.parent = some r)
    (hr : alistGet tbl r = none) : False := by
  cases h with
  | refl => exact hne rfl
  | step hd hget hcm =>
    rcases hI.childCB _ (alistGet_mem hget) _ hcm with hnone | ⟨cn, hcn, hpar⟩
    · rw [hnone] at hpres
      exact absurd hpres (by simp)
    · have h2 := hc'r cn hcn
      dsimp only at hpar
      have h3 := hpar.symm.trans h2
      injection h3 with he
      rw [he] at hget
      rw [hget] at hr
      exact Option.noConfusion hr

/-! ### The removal characterization -/

/-- What one batch of subtree removals does to a model: the removed ids `D`
are exactly the present members of the domain `dom`, the node table loses
exactly those entries, the order list is filtered by them, and every other
field survives. -/
structure RemovalOutcome (m res : EditorModel) (dom : Nat → Prop) (D : List Nat) : Prop where
  nodupD : D.Nodup
  memD : ∀ k, k ∈ D ↔ (dom k ∧ (alistGet m.nodes k).isSome)
  lenEq : res.nodes.length + D.length = m.nodes.length
  getD : ∀ k ∈ D, alistGet res.nodes k = none
  getOther : ∀ k, k ∉ D → alistGet res.nodes k = alistGet m.nodes k
  subl : res.nodes.Sublist m.nodes
  orderEq : res.order = m.order.filter (fun i => decide (i ∉ D))
  misc : MiscEq res m

theorem TblInv_of_outcome {m res : EditorModel} {dom : Nat → Prop} {D : List Nat}
    (hI : TblInv m.nodes) (ho : RemovalOutcome m res dom D) : TblInv res.nodes := by
  refine ⟨List.Nodup.sublist (ho.subl.map Prod.fst) hI.nodup, ?_, ?_, ?_⟩
  · intro p hp c hc
    exact hI.childUp p (ho.subl.mem hp) c hc
  · intro p hp c hc
    by_cases hcD : c ∈ D
    · exact Or.inl (ho.getD c hcD)
    · rcases hI.childCB p (ho.subl.mem hp) c hc with h1 | ⟨cn, hcn, hpar⟩
      · exact Or.inl ((ho.getOther c hcD).trans h1)
      · exact Or.inr ⟨cn, (ho.getOther c hcD).trans hcn, hpar⟩
  · intro p hp
    exact hI.childNodup p (ho.subl.mem hp)

theorem filter_notmem_nil (l : List Nat) :
    l.filter (fun i => decide (i ∉ ([] : List Nat))) = l := by
  induction l with
  | nil => rfl
  | cons a l ih => simp [List.filter_cons, ih]

theorem filter_notmem_append (l D1 D2 : List Nat) :
    (l.filter (fun i => decide (i ∉ D1))).filter (fun i => decide (i ∉ D2)) =
      l.filter (fun i => decide (i ∉ D1 ++ D2)) := by
  induction l with
  | nil => rfl
  | cons a l ih =>
    by_cases h1 : a ∈ D1
    · rw [List.filter_cons, List.filter_cons, if_neg (by simp [h1]),
          if_neg (by simp [List.mem_append, h1])]
      exact ih
    · rw [List.filter_cons, List.filter_cons, if_pos (by simp [h1]), List.filter_cons]
      by_cases h2 : a ∈ D2
      · rw [if_neg (by simp [h2]), if_neg (by simp [List.mem_append, h1, h2])]
        exact ih
      · rw [if_pos (by simp [h2]), if_pos (by simp [List.mem_append, h1, h2]), ih]

theorem filter_ne_notmem (l : List Nat) (r : Nat) (D : List Nat) :
    (l.filter (fun i => decide (i ∉ D))).filter (fun i => i != r) =
      l.filter (fun i => decide (i ∉ r :: D)) := by
  induction l with
  | nil => rfl
  | cons a l ih =>
    by_cases h1 : a ∈ D
    · rw [List.filter_cons, List.filter_cons, if_neg (by simp [h1]),
          if_neg (by simp [List.mem_cons, h1])]
      exact ih
    · rw [List.filter_cons, List.filter_cons, if_pos (by simp [h1]), List.filter_cons]
      by_cases h2 : a = r
      · rw [if_neg (by simp [h2]), if_neg (by simp [List.mem_cons, h1, h2])]
        exact ih
      · rw [if_pos (by simp [h2]), if_pos (by simp [List.mem_cons, h1, h2]), ih]

/-- Subtrees of two distinct children of a removed pivot share no present
node. -/
theorem sibling_subtrees_disjoint {tbl : List (Nat × Node)} (hI : TblInv tbl)
    {r c c' : Nat} (hne : c ≠ c')
    (hcr : ∀ cn, alistGet tbl c = some cn → cn.parent = some r)
    (hc'r : ∀ cn, alistGet tbl c' = some cn → cn.parent = some r)
    (hr : alistGet tbl r = none) :
    ∀ k, Desc tbl c k → Desc tbl c' k → (alistGet tbl k).isSome → False := by
  intro k h1 h2 hpres
  rcases Desc_comparable hI.childCB h1 c' h2 hpres with h | h
  · have hc'pres : (alistGet tbl c').isSome := by
      rcases Desc_head h2 with he | ⟨n', hn', _⟩
      · rw [← he]
        exact hpres
      · simp [hn']
    exact no_desc_between_siblings hI h (fun he => hne he.symm) hc'pres hc'r hr
  · have hcpres : (alistGet tbl c).isSome := by
      rcases Desc_head h1 with he | ⟨n', hn', _⟩
      · rw [← he]
        exact hpres
      · simp [hn']
    exact no_desc_between_siblings hI h hne hcpres hcr hr

theorem removeSubtree_succ_some {fuel : Nat} {m : EditorModel} {r : Nat}
    {node : Node} {nodes1 : List (Nat × Node)}
    (hpop : alistPop m.nodes r = (some node, nodes1))
    (hdetach : ∀ pid, node.parent = some pid →
      alistGet (node.children.foldl (fun acc c => removeSubtree fuel acc c)
        { m with nodes := nodes1 }).nodes pid = none) :
    removeSubtree (fuel + 1) m r =
      { node.children.foldl (fun acc c => removeSubtree fuel acc c)
          { m with nodes := nodes1 } with
        order := (node.children.foldl (fun acc c => removeSubtree fuel acc c)
          { m with nodes := nodes1 }).order.filter (fun nid => nid != r) } := by
  simp only [removeSubtree, hpop]
  cases hnp : node.parent with
  | none => rfl
  | some pid =>
    dsimp only
    rw [hdetach pid hnp]

theorem removeSubtree_succ_none {fuel : Nat} {m : EditorModel} {r : Nat}
    {nodes1 : List (Nat × Node)}
    (hpop : alistPop m.nodes r = (none, nodes1)) :
    removeSubtree (fuel + 1) m r = m := by
  simp only [removeSubtree, hpop]

/-- The removal characterization at a given amount of fuel: a call on a
table no larger than the fuel whose pivot has no surviving parent removes
exactly the present members of the pivot's subtree. -/
def RemoveSpecAt (fuel : Nat) : Prop :=
  ∀ (m : EditorModel) (r : Nat), TblInv m.nodes → m.nodes.length ≤ fuel →
    (∀ n, alistGet m.nodes r = some n → ∀ p, n.parent = some p →
      alistGet m.nodes p = none) →
    ∃ D, RemovalOutcome m (removeSubtree fuel m r) (Desc m.nodes r) D

theorem removeFold_spec (fuel : Nat) (hA : RemoveSpecAt fuel) :
    ∀ (cs : List Nat) (m : EditorModel) (r : Nat), TblInv m.nodes →
      m.nodes.length ≤ fuel → alistGet m.nodes r = none →
      (∀ c ∈ cs, ∀ cn, alistGet m.nodes c = some cn → cn.parent = some r) →
      cs.Nodup →
      ∃ D, RemovalOutcome m (cs.foldl (fun acc c => removeSubtree fuel acc c) m)
        (fun k => ∃ c ∈ cs, Desc m.nodes c k) D := by
  intro cs
  induction cs with
  | nil =>
    intro m r hI hlen hr hpar hnd
    refine ⟨[], List.nodup_nil, ?_, ?_, ?_, ?_, ?_, ?_, MiscEq.refl m⟩
    · intro k
      simp
    · simp [List.foldl_nil]
    · intro k hk
      simp at hk
    · intro k _
      rfl
    · exact List.Sublist.refl _
    · rw [filter_notmem_nil]
      rfl
  | cons c cs ih =>
    intro m r hI hlen hr hpar hnd
    rw [List.nodup_cons] at hnd
    have hcr : ∀ cn, alistGet m.nodes c = some cn → cn.parent = some r :=
      fun cn hcn => hpar c (List.mem_cons_self c cs) cn hcn
    have hparc : ∀ n, alistGet m.nodes c = some n → ∀ p, n.parent = some p →
        alistGet m.nodes p = none := by
      intro n hn p hp
      have h1 := hcr n hn
      rw [hp] at h1
      injection h1 with he
      rw [he]
      exact hr
    obtain ⟨D1, o1⟩ := hA m c hI hlen hparc
    have hI1 : TblInv (removeSubtree fuel m c).nodes := TblInv_of_outcome hI o1
    have hlen1 : (removeSubtree fuel m c).nodes.length ≤ fuel := by
      have := o1.lenEq
      omega
    have hr1 : alistGet (removeSubtree fuel m c).nodes r = none := by
      by_cases hrD : r ∈ D1
      · exact o1.getD r hrD
      · rw [o1.getOther r hrD]
        exact hr
    have hpar1 : ∀ c' ∈ cs, ∀ cn,
        alistGet (removeSubtree fuel m c).nodes c' = some cn → cn.parent = some r := by
      intro c' hc' cn hcn
      by_cases hD : c' ∈ D1
      · rw [o1.getD c' hD] at hcn
        exact Option.noConfusion hcn
      · rw [o1.getOther c' hD] at hcn
        exact hpar c' (List.mem_cons_of_mem _ hc') cn hcn
    -- a present node of a later sibling's subtree is never removed by the
    -- first sibling's removal
    have hdisj : ∀ c' ∈ cs, ∀ k, Desc m.nodes c' k → (alistGet m.nodes k).isSome →
        k ∉ D1 := by
      intro c' hc' k hk hpres hkD
      have h1 := (o1.memD k).mp hkD
      have hne : c ≠ c' := fun he => hnd.1 (he ▸ hc')
      exact sibling_subtrees_disjoint hI hne hcr
        (fun cn hcn => hpar c' (List.mem_cons_of_mem _ hc') cn hcn) hr k h1.1 hk hpres
    have hstab : ∀ c' ∈ cs, ∀ k,
        Desc (removeSubtree fuel m c).nodes c' k ↔ Desc m.nodes c' k := by
      intro c' hc'
      apply Desc_iff_stable
      · intro k
        by_cases hD : k ∈ D1
        · exact Or.inr (o1.getD k hD)
        · exact Or.inl (o1.getOther k hD)
      · intro k hk hpres
        exact o1.getOther k (hdisj c' hc' k hk hpres)
    have hpresEq : ∀ c' ∈ cs, ∀ k, Desc m.nodes c' k →
        ((alistGet (removeSubtree fuel m c).nodes k).isSome ↔
          (alistGet m.nodes k).isSome) := by
      intro c' hc' k hk
      constructor
      · intro hp
        by_cases hD : k ∈ D1
        · rw [o1.getD k hD] at hp
          exact absurd hp (by simp)
        · rw [o1.getOther k hD] at hp
          exact hp
      · intro hp
        rw [o1.getOther k (hdisj c' hc' k hk hp)]
        exact hp
    obtain ⟨D2, o2⟩ := ih (removeSubtree fuel m c) r hI1 hlen1 hr1 hpar1 hnd.2
    rw [List.foldl_cons]
    refine ⟨D1 ++ D2, ?_, ?_, ?_, ?_, ?_, ?_, ?_, ?_⟩
    · refine List.Nodup.append o1.nodupD o2.nodupD ?_
      intro k hk1 hk2
      obtain ⟨⟨c', hc', hdesc⟩, hpres1⟩ := (o2.memD k).mp hk2
      have hdm : Desc m.nodes c' k := (hstab c' hc' k).mp hdesc
      have hpm : (alistGet m.nodes k).isSome := (hpresEq c' hc' k hdm).mp hpres1
      exact hdisj c' hc' k hdm hpm hk1
    · intro k
      constructor
      · intro hk
        rcases List.mem_append.mp hk with hk1 | hk2
        · obtain ⟨hdesc, hpres⟩ := (o1.memD k).mp hk1
          exact ⟨⟨c, List.mem_cons_self c cs, hdesc⟩, hpres⟩
        · obtain ⟨⟨c', hc', hdesc⟩, hpres1⟩ := (o2.memD k).mp hk2
          have hdm : Desc m.nodes c' k := (hstab c' hc' k).mp hdesc
          exact ⟨⟨c', List.mem_cons_of_mem _ hc', hdm⟩,
            (hpresEq c' hc' k hdm).mp hpres1⟩
      · rintro ⟨⟨c', hc', hdesc⟩, hpres⟩
        rcases List.mem_cons.mp hc' with he | hc'
        · subst he
          exact List.mem_append.mpr (Or.inl ((o1.memD k).mpr ⟨hdesc, hpres⟩))
        · refine List.mem_append.mpr (Or.inr ((o2.memD k).mpr
            ⟨⟨c', hc', (hstab c' hc' k).mpr hdesc⟩,
             (hpresEq c' hc' k hdesc).mpr hpres⟩))
    · have h1 := o1.lenEq
      have h2 := o2.lenEq
      rw [List.length_append]
      omega
    · intro k hk
      rcases List.mem_append.mp hk with hk1 | hk2
      · by_cases hD2 : k ∈ D2
        · exact o2.getD k hD2
        · rw [o2.getOther k hD2]
          exact o1.getD k hk1
      · exact o2.getD k hk2
    · intro k hk
      rw [List.mem_append] at hk
      push_neg at hk
      rw [o2.getOther k hk.2]
      exact o1.getOther k hk.1
    · exact o2.subl.trans o1.subl
    · rw [o2.orderEq, o1.orderEq, filter_notmem_append]
    · exact o2.misc.trans o1.misc

theorem removeSpec_all : ∀ fuel, RemoveSpecAt fuel := by
  intro fuel
  induction fuel with
  | zero =>
    intro m r hI hlen hparent
    have hnil : m.nodes = [] := List.length_eq_zero.mp (Nat.le_zero.mp hlen)
    refine ⟨[], List.nodup_nil, ?_, by simp [removeSubtree], ?_, fun k _ => rfl,
      List.Sublist.refl _, by rw [filter_notmem_nil]; rfl, MiscEq.refl m⟩
    · intro k
      simp only [List.not_mem_nil, false_iff]
      rintro ⟨_, hpres⟩
      rw [hnil] at hpres
      exact absurd hpres (by simp [alistGet])
    · intro k hk
      exact absurd hk (List.not_mem_nil k)
  | succ fuel ihA =>
    intro m r hI hlen hparent
    rcases hpop : alistPop m.nodes r with ⟨o, nodes1⟩
    have hgeto : alistGet m.nodes r = o := by
      rw [← alistPop_fst m.nodes r, hpop]
    cases o with
    | none =>
      rw [removeSubtree_succ_none hpop]
      refine ⟨[], List.nodup_nil, ?_, by simp, ?_, fun k _ => rfl,
        List.Sublist.refl _, by rw [filter_notmem_nil], MiscEq.refl m⟩
      · intro k
        simp only [List.not_mem_nil, false_iff]
        rintro ⟨hdesc, hpres⟩
        rcases Desc_head hdesc with he | ⟨n, hn, _⟩
        · rw [he, hgeto] at hpres
          exact absurd hpres (by simp)
        · rw [hgeto] at hn
          exact Option.noConfusion hn
      · intro k hk
        exact absurd hk (List.not_mem_nil k)
    | some node =>
      have hget : alistGet m.nodes r = some node := hgeto
      have hpopn : (alistPop m.nodes r).2 = nodes1 := by rw [hpop]
      have hI1 : TblInv nodes1 := by
        rw [← hpopn]
        exact TblInv_pop hI r
      have hlen1 : nodes1.length + 1 = m.nodes.length := by
        rw [← hpopn]
        exact alistPop_length hget
      have hlenle : nodes1.length ≤ fuel := by omega
      have hr1 : alistGet nodes1 r = none := by
        rw [← hpopn]
        exact alistGet_pop_self hI.nodup
      have hgetpop : ∀ k, k ≠ r → alistGet nodes1 k = alistGet m.nodes k := by
        intro k hk
        rw [← hpopn]
        exact alistGet_pop_ne m.nodes r k hk
      have hmem : (r, node) ∈ m.nodes := alistGet_mem hget
      have hchildUp : ∀ c ∈ node.children, r < c := fun c hc => hI.childUp _ hmem c hc
      have hchildNd : node.children.Nodup := hI.childNodup _ hmem
      have hpar1 : ∀ c ∈ node.children, ∀ cn,
          alistGet ({ m with nodes := nodes1 } : EditorModel).nodes c = some cn →
          cn.parent = some r := by
        intro c hc cn hcn
        have hcne : c ≠ r := by
          have := hchildUp c hc
          omega
        change alistGet nodes1 c = some cn at hcn
        rw [hgetpop c hcne] at hcn
        rcases hI.childCB _ hmem c hc with h1 | ⟨cn', hcn', hparode⟩
        · rw [h1] at hcn
          exact Option.noConfusion hcn
        · rw [hcn'] at hcn
          injection hcn with he
          dsimp only at hparode
          rw [he] at hparode
          exact hparode
      obtain ⟨Ds, oS⟩ := removeFold_spec fuel ihA node.children
        { m with nodes := nodes1 } r hI1 hlenle hr1 hpar1 hchildNd
      have hdetach : ∀ pid, node.parent = some pid →
          alistGet (node.children.foldl (fun acc c => removeSubtree fuel acc c)
            { m with nodes := nodes1 }).nodes pid = none := by
        intro pid hnp
        have hpm : alistGet m.nodes pid = none := hparent node hget pid hnp
        by_cases hD : pid ∈ Ds
        · exact oS.getD pid hD
        · rw [oS.getOther pid hD]
          change alistGet nodes1 pid = none
          by_cases hpr : pid = r
          · rw [hpr]
            exact hr1
          · rw [hgetpop pid hpr]
            exact hpm
      rw [removeSubtree_succ_some hpop hdetach]
      have hrDs : r ∉ Ds := by
        intro hr2
        have h1 := ((oS.memD r).mp hr2).2
        change (alistGet nodes1 r).isSome at h1
        rw [hr1] at h1
        exact absurd h1 (by simp)
      have hstab : ∀ c ∈ node.children, ∀ k, Desc nodes1 c k ↔ Desc m.nodes c k := by
        intro c hc
        apply Desc_iff_stable
        · intro k
          by_cases hk : k = r
          · rw [hk]
            exact Or.inr hr1
          · exact Or.inl (hgetpop k hk)
        · intro k hk hpres
          have hkr : k ≠ r := by
            have h1 := Desc_le hI.childUp hk
            have h2 := hchildUp c hc
            omega
          exact hgetpop k hkr
      refine ⟨r :: Ds, ?_, ?_, ?_, ?_, ?_, ?_, ?_, ?_⟩
      · exact List.nodup_cons.mpr ⟨hrDs, oS.nodupD⟩
      · intro k
        constructor
        · intro hk
          rcases List.mem_cons.mp hk with he | hk2
          · subst he
            exact ⟨Desc.refl, by simp [hget]⟩
          · obtain ⟨⟨c, hc, hdesc1⟩, hpres1⟩ := (oS.memD k).mp hk2
            change Desc nodes1 c k at hdesc1
            change (alistGet nodes1 k).isSome at hpres1
            have hkne : k ≠ r := by
              intro he
              rw [he, hr1] at hpres1
              exact absurd hpres1 (by simp)
            have hdm := (hstab c hc k).mp hdesc1
            refine ⟨Desc_of_child hget hc hdm, ?_⟩
            rw [← hgetpop k hkne]
            exact hpres1
        · rintro ⟨hdesc, hpres⟩
          rcases Desc_head hdesc with he | ⟨n, hn, c, hc, hdc⟩
          · rw [he]
            exact List.mem_cons_self r _
          · rw [hget] at hn
            injection hn with hn
            rw [← hn] at hc
            have hkne : k ≠ r := by
              have h1 := Desc_le hI.childUp hdc
              have h2 := hchildUp c hc
              omega
            refine List.mem_cons_of_mem r ((oS.memD k).mpr ⟨⟨c, hc, ?_⟩, ?_⟩)
            · exact (hstab c hc k).mpr hdc
            · change (alistGet nodes1 k).isSome
              rw [hgetpop k hkne]
              exact hpres
      · have h1 := oS.lenEq
        dsimp only at h1 ⊢
        rw [List.length_cons]
        omega
      · intro k hk
        rcases List.mem_cons.mp hk with he | hk2
        · subst he
          rw [oS.getOther k hrDs]
          change alistGet nodes1 k = none
          exact hr1
        · exact oS.getD k hk2
      · intro k hk
        rw [List.mem_cons] at hk
        push_neg at hk
        rw [oS.getOther k hk.2]
        change alistGet nodes1 k = alistGet m.nodes k
        exact hgetpop k hk.1
      · refine oS.subl.trans ?_
        change nodes1.Sublist m.nodes
        rw [← hpopn]
        exact alistPop_snd_sublist m.nodes r
      · have h1 := oS.orderEq
        dsimp only at h1
        rw [h1, filter_ne_notmem]
      · exact oS.misc

/-! ### The reachable-state invariant -/

/-- Invariants of every reachable model state: root facts, key discipline,
tree coherence in both directions, creation-order discipline and selection
validity. -/
structure ModelInv (m : EditorModel) : Prop where
  root_id_eq : m.root_id = 0
  rootEx : ∃ n, alistGet m.nodes 0 = some n ∧ n.kind = NodeKind.root ∧
    n.parent = none ∧ n.payload = none
  nodup : (alistKeys m.nodes).Nodup
  keyId : ∀ p ∈ m.nodes, p.2.id = p.1
  keysLt : ∀ p ∈ m.nodes, p.1 < m.next_id
  nextPos : 0 < m.next_id
  parentSome : ∀ p ∈ m.nodes, p.1 ≠ 0 → ∃ q, p.2.parent = some q
  childUp : ∀ p ∈ m.nodes, ∀ c ∈ p.2.children, p.1 < c
  childEx : ∀ p ∈ m.nodes, ∀ c ∈ p.2.children,
    ∃ cn, alistGet m.nodes c = some cn ∧ cn.parent = some p.1
  childNodup : ∀ p ∈ m.nodes, p.2.children.Nodup
  parentEx : ∀ p ∈ m.nodes, ∀ q, p.2.parent = some q →
    ∃ pn, alistGet m.nodes q = some pn ∧ p.1 ∈ pn.children
  orderMem : ∀ i ∈ m.order, ∃ n, alistGet m.nodes i = some n
  orderPos : ∀ i ∈ m.order, 0 < i
  orderSorted : m.order.Pairwise (· < ·)
  orderComplete : ∀ p ∈ m.nodes, p.1 ≠ 0 → p.1 ∈ m.order
  payloadOk : ∀ p ∈ m.nodes, p.1 ≠ 0 → p.2.payload.isSome
  selOk : ∀ s, m.selected_id = some s → s ≠ 0 ∧ ∃ n, alistGet m.nodes s = some n

theorem ModelInv.tbl {m : EditorModel} (h : ModelInv m) : TblInv m.nodes :=
  ⟨h.nodup, h.childUp, fun p hp c hc => Or.inr (h.childEx p hp c hc), h.childNodup⟩

/-- States reachable from initialization by the public operations. -/
inductive Reachable : EditorModel → Prop
  | init (registry : PaletteRegistry) : Reachable (EditorModel.init registry)
  | spawn {m : EditorModel} (kind : PaletteKind) (idx : Nat) (position : Int × Int)
      (parent_hint : Option Nat) :
      Reachable m → Reachable (m.spawn_from_palette kind idx position parent_hint).2
  | select {m : EditorModel} (node_id : Option Nat) :
      Reachable m → Reachable (m.select_node node_id)
  | selectAt {m : EditorModel} (mouse_pos : Int × Int) :
      Reachable m → Reachable (m.select_at_position mouse_pos).2
  | move {m : EditorModel} (canvas_rect : Rect) (desired : Vector2) :
      Reachable m → Reachable (m.move_selected_within canvas_rect desired)
  | delete {m : EditorModel} : Reachable m → Reachable m.delete_selected

theorem modelInv_init (registry : PaletteRegistry) : ModelInv (EditorModel.init registry) := by
  have hmem : ∀ p, p ∈ (EditorModel.init registry).nodes → p = (0, sceneRoot) := by
    intro p hp
    simpa [EditorModel.init] using hp
  refine ⟨rfl, ⟨sceneRoot, rfl, rfl, rfl, rfl⟩, ?_, ?_, ?_, Nat.zero_lt_one,
    ?_, ?_, ?_, ?_, ?_, ?_, ?_, ?_, ?_, ?_, ?_⟩
  · simp [EditorModel.init, alistKeys]
  · intro p hp
    rw [hmem p hp]
    rfl
  · intro p hp
    rw [hmem p hp]
    exact Nat.zero_lt_one
  · intro p hp hne
    rw [hmem p hp] at hne
    exact absurd rfl hne
  · intro p hp c hc
    rw [hmem p hp] at hc
    simp [sceneRoot] at hc
  · intro p hp c hc
    rw [hmem p hp] at hc
    simp [sceneRoot] at hc
  · intro p hp
    rw [hmem p hp]
    simp [sceneRoot]
  · intro p hp q hq
    rw [hmem p hp] at hq
    simp [sceneRoot] at hq
  · intro i hi
    simp [EditorModel.init] at hi
  · intro i hi
    simp [EditorModel.init] at hi
  · simp [EditorModel.init]
  · intro p hp hne
    rw [hmem p hp] at hne
    exact absurd rfl hne
  · intro p hp hne
    rw [hmem p hp] at hne
    exact absurd rfl hne
  · intro s hs
    simp [EditorModel.init] at hs

theorem modelInv_set_selected {m : EditorModel} (h : ModelInv m) (sel : Option Nat)
    (hsel : ∀ s, sel = some s → s ≠ 0 ∧ ∃ n, alistGet m.nodes s = some n) :
    ModelInv { m with selected_id := sel } :=
  ⟨h.root_id_eq, h.rootEx, h.nodup, h.keyId, h.keysLt, h.nextPos, h.parentSome,
   h.childUp, h.childEx, h.childNodup, h.parentEx, h.orderMem, h.orderPos,
   h.orderSorted, h.orderComplete, h.payloadOk, hsel⟩

theorem modelInv_select_node {m : EditorModel} (h : ModelInv m) (node_id : Option Nat) :
    ModelInv (m.select_node node_id) := by
  cases node_id with
  | none =>
    exact modelInv_set_selected h none (fun s hs => Option.noConfusion hs)
  | some nid =>
    simp only [EditorModel.select_node]
    by_cases h1 : (alistGet m.nodes nid).isNone
    · rw [if_pos h1]
      exact modelInv_set_selected h none (fun s hs => Option.noConfusion hs)
    · rw [if_neg h1]
      by_cases h2 : nid = m.root_id
      · rw [if_pos h2]
        exact modelInv_set_selected h none (fun s hs => Option.noConfusion hs)
      · rw [if_neg h2]
        refine modelInv_set_selected h (some nid) ?_
        intro s hs
        injection hs with hs
        constructor
        · rw [← hs]
          rw [h.root_id_eq] at h2
          exact h2
        · rw [← hs]
          rcases hg : alistGet m.nodes nid with _ | n
          · rw [hg] at h1
            exact absurd rfl h1
          · exact ⟨n, rfl⟩

theorem modelInv_select_at_position {m : EditorModel} (h : ModelInv m)
    (mouse_pos : Int × Int) : ModelInv (m.select_at_position mouse_pos).2 :=
  modelInv_select_node h _

theorem modelInv_set_node {m : EditorModel} (h : ModelInv m) {sid : Nat} {node node' : Node}
    (hget : alistGet m.nodes sid = some node)
    (hid : node'.id = node.id) (hkind : node'.kind = node.kind)
    (hparent : node'.parent = node.parent) (hchildren : node'.children = node.children)
    (hpayload : node'.payload.isSome = node.payload.isSome) :
    ModelInv { m with nodes := alistSet m.nodes sid node' } := by
  have hmemm : (sid, node) ∈ m.nodes := alistGet_mem hget
  have hgetne : ∀ k, k ≠ sid →
      alistGet (alistSet m.nodes sid node') k = alistGet m.nodes k :=
    fun k hk => alistGet_set_ne m.nodes sid k node' hk
  have hgetS : alistGet (alistSet m.nodes sid node') sid = some node' :=
    alistGet_set_eq _ _ _
  have hpres : ∀ k, (alistGet (alistSet m.nodes sid node') k).isSome ↔
      (alistGet m.nodes k).isSome := by
    intro k
    by_cases hk : k = sid
    · subst hk
      rw [hgetS]
      simp [hget]
    · rw [hgetne k hk]
  have huniq : ∀ {v : Node}, (sid, v) ∈ m.nodes → v = node := by
    intro v hv
    have := mem_alistGet h.nodup hv
    rw [hget] at this
    injection this with this
    exact this.symm
  refine ⟨h.root_id_eq, ?_, alistSet_nodup h.nodup, ?_, ?_, h.nextPos, ?_, ?_, ?_,
    ?_, ?_, ?_, h.orderPos, h.orderSorted, ?_, ?_, ?_⟩
  · obtain ⟨rn, hrn, hk0, hpar0, hpl0⟩ := h.rootEx
    by_cases hs0 : sid = 0
    · subst hs0
      have hrn2 : node = rn := by
        rw [hget] at hrn
        injection hrn with hrn
      refine ⟨node', hgetS, ?_, ?_, ?_⟩
      · rw [hkind, hrn2, hk0]
      · rw [hparent, hrn2, hpar0]
      · have : node'.payload.isSome = false := by
          rw [hpayload, hrn2, hpl0]
          rfl
        exact Option.not_isSome_iff_eq_none.mp (by simp [this])
    · exact ⟨rn, (hgetne 0 (fun he => hs0 he.symm)).trans hrn, hk0, hpar0, hpl0⟩
  · intro p hp
    rcases alistSet_mem hp with he | hp2
    · rw [he]
      have := h.keyId (sid, node) hmemm
      dsimp only
      rw [hid]
      exact this
    · exact h.keyId p hp2
  · intro p hp
    rcases alistSet_mem hp with he | hp2
    · rw [he]
      exact h.keysLt (sid, node) hmemm
    · exact h.keysLt p hp2
  · intro p hp hne
    rcases alistSet_mem hp with he | hp2
    · rw [he] at hne ⊢
      dsimp only at hne ⊢
      rw [hparent]
      exact h.parentSome (sid, node) hmemm hne
    · exact h.parentSome p hp2 hne
  · intro p hp c hc
    rcases alistSet_mem hp with he | hp2
    · rw [he] at hc ⊢
      dsimp only at hc ⊢
      rw [hchildren] at hc
      exact h.childUp (sid, node) hmemm c hc
    · exact h.childUp p hp2 c hc
  · intro p hp c hc
    have hcc : ∃ cn, alistGet m.nodes c = some cn ∧ cn.parent = some p.1 := by
      rcases alistSet_mem hp with he | hp2
      · rw [he] at hc ⊢
        dsimp only at hc ⊢
        rw [hchildren] at hc
        exact h.childEx (sid, node) hmemm c hc
      · exact h.childEx p hp2 c hc
    obtain ⟨cn, hcn, hcp⟩ := hcc
    by_cases hcs : c = sid
    · subst hcs
      rw [hget] at hcn
      injection hcn with hcn
      refine ⟨node', hgetS, ?_⟩
      rw [hparent, hcn]
      exact hcp
    · exact ⟨cn, (hgetne c hcs).trans hcn, hcp⟩
  · intro p hp
    rcases alistSet_mem hp with he | hp2
    · rw [he]
      dsimp only
      rw [hchildren]
      exact h.childNodup (sid, node) hmemm
    · exact h.childNodup p hp2
  · intro p hp q hq
    have hpe : ∃ pn, alistGet m.nodes q = some pn ∧ p.1 ∈ pn.children := by
      rcases alistSet_mem hp with he | hp2
      · rw [he] at hq ⊢
        dsimp only at hq ⊢
        rw [hparent] at hq
        exact h.parentEx (sid, node) hmemm q hq
      · exact h.parentEx p hp2 q hq
    obtain ⟨pn, hpn, hpc⟩ := hpe
    by_cases hqs : q = sid
    · subst hqs
      rw [hget] at hpn
      injection hpn with hpn
      refine ⟨node', hgetS, ?_⟩
      rw [hchildren, hpn]
      exact hpc
    · exact ⟨pn, (hgetne q hqs).trans hpn, hpc⟩
  · intro i hi
    obtain ⟨n0, hn0⟩ := h.orderMem i hi
    by_cases hk : i = sid
    · subst hk
      exact ⟨node', hgetS⟩
    · exact ⟨n0, (hgetne i hk).trans hn0⟩
  · intro p hp hne
    rcases alistSet_mem hp with he | hp2
    · rw [he] at hne ⊢
      exact h.orderComplete (sid, node) hmemm hne
    · exact h.orderComplete p hp2 hne
  · intro p hp hne
    rcases alistSet_mem hp with he | hp2
    · rw [he] at hne ⊢
      dsimp only at hne ⊢
      rw [hpayload]
      exact h.payloadOk (sid, node) hmemm hne
    · exact h.payloadOk p hp2 hne
  · intro s hs
    obtain ⟨hs0, n0, hn0⟩ := h.selOk s hs
    refine ⟨hs0, ?_⟩
    by_cases hk : s = sid
    · subst hk
      exact ⟨node', hgetS⟩
    · exact ⟨n0, (hgetne s hk).trans hn0⟩

theorem modelInv_move {m : EditorModel} (h : ModelInv m) (canvas_rect : Rect)
    (desired : Vector2) : ModelInv (m.move_selected_within canvas_rect desired) := by
  simp only [EditorModel.move_selected_within]
  rcases hsel : m.selected_id with _ | sid
  · exact h
  · dsimp only
    rcases hget : alistGet m.nodes sid with _ | node
    · exact h
    · dsimp only
      rcases hpl : node.payload with _ | payload
      · exact h
      · dsimp only
        rcases hpos : payload.pos with _ | pos
        · exact h
        · dsimp only
          rw [← hsel]
          exact @modelInv_set_node m h sid node
            { node with payload := some { payload with pos := some {
                x := max ((canvas_rect.left : ℚ) + node.radius)
                   (min ((canvas_rect.right : ℚ) - node.radius) desired.x),
                y := max ((canvas_rect.top : ℚ) + node.radius)
                   (min ((canvas_rect.bottom : ℚ) - node.radius) desired.y) } } }
            hget rfl rfl rfl rfl (by simp [hpl])

/-! ### Spawn characterization -/

theorem parent_allows_true {m : EditorModel} {pid : Nat} {kind : PaletteKind}
    (h : m.parent_allows pid kind = true) :
    ∃ pnode, alistGet m.nodes pid = some pnode := by
  rw [EditorModel.parent_allows] at h
  rcases hget : alistGet m.nodes pid with _ | pnode
  · rw [hget] at h
    exact Bool.noConfusion h
  · exact ⟨pnode, rfl⟩

theorem resolveFrom_some {m : EditorModel} {kind : PaletteKind} :
    ∀ (cands : List (Option Nat)) {c : Nat}, resolveFrom m kind cands = some c →
      m.parent_allows c kind = true := by
  intro cands
  induction cands with
  | nil =>
    intro c h
    exact Option.noConfusion h
  | cons o rest ih =>
    intro c h
    cases o with
    | none =>
      rw [resolveFrom] at h
      exact ih h
    | some c0 =>
      rw [resolveFrom] at h
      by_cases hallow : m.parent_allows c0 kind
      · rw [if_pos hallow] at h
        injection h with h
        rw [← h]
        exact hallow
      · rw [if_neg hallow] at h
        exact ih h

theorem resolve_parent_some {m : EditorModel} {kind : PaletteKind} {hint : Option Nat}
    {pid : Nat} (h : m.resolve_parent kind hint = some pid) :
    m.parent_allows pid kind = true :=
  resolveFrom_some _ h

/-- The node record built by a successful spawn. -/
def spawnNode (m : EditorModel) (kind : PaletteKind) (item : PaletteItem)
    (pid : Nat) (position : Int × Int) : Node :=
  { id := m.next_id, kind := kind.toNodeKind,
    name := (makeLabel m.label_counts item.name).1, base_name := item.name,
    payload := some (item.factory ⟨(position.1 : ℚ), (position.2 : ℚ)⟩),
    parent := some pid, children := [] }

theorem spawn_fail_item {m : EditorModel} {kind : PaletteKind} {idx : Nat}
    {position : Int × Int} {hint : Option Nat}
    (hitem : m.registry.get_item kind idx = none) :
    m.spawn_from_palette kind idx position hint = (none, m) := by
  simp only [EditorModel.spawn_from_palette, hitem]

theorem spawn_fail_parent {m : EditorModel} {kind : PaletteKind} {idx : Nat}
    {position : Int × Int} {hint : Option Nat} {item : PaletteItem}
    (hitem : m.registry.get_item kind idx = some item)
    (hres : m.resolve_parent kind hint = none) :
    m.spawn_from_palette kind idx position hint = (none, m) := by
  simp only [EditorModel.spawn_from_palette, hitem, hres]

theorem spawn_succ_eq {m : EditorModel} {kind : PaletteKind} {idx : Nat}
    {position : Int × Int} {hint : Option Nat} {item : PaletteItem} {pid : Nat}
    (hitem : m.registry.get_item kind idx = some item)
    (hres : m.resolve_parent kind hint = some pid) :
    m.spawn_from_palette kind idx position hint =
      (some (spawnNode m kind item pid position),
       { m with
         nodes := attachChild
           (alistSet m.nodes m.next_id (spawnNode m kind item pid position))
           pid m.next_id,
         order := m.order ++ [m.next_id],
         label_counts := (makeLabel m.label_counts item.name).2,
         next_id := m.next_id + 1,
         selected_id := some m.next_id }) := by
  simp only [EditorModel.spawn_from_palette, hitem, hres, spawnNode]

theorem modelInv_spawn {m : EditorModel} (h : ModelInv m) (kind : PaletteKind)
    (idx : Nat) (position : Int × Int) (hint : Option Nat) :
    ModelInv (m.spawn_from_palette kind idx position hint).2 := by
  rcases hitem : m.registry.get_item kind idx with _ | item
  · rw [spawn_fail_item hitem]
    exact h
  rcases hres : m.resolve_parent kind hint with _ | pid
  · rw [spawn_fail_parent hitem hres]
    exact h
  obtain ⟨pnode, hpget⟩ := parent_allows_true (resolve_parent_some hres)
  rw [spawn_succ_eq hitem hres]
  have hpmem : (pid, pnode) ∈ m.nodes := alistGet_mem hpget
  have hpidlt : pid < m.next_id := h.keysLt (pid, pnode) hpmem
  have hpidne : pid ≠ m.next_id := by omega
  have hkeylt : ∀ {k : Nat} {v : Node}, alistGet m.nodes k = some v → k < m.next_id :=
    fun hv => h.keysLt _ (alistGet_mem hv)
  have hchildlt : ∀ p ∈ m.nodes, ∀ c ∈ p.2.children, c < m.next_id := by
    intro p hp c hc
    obtain ⟨cn, hcn, _⟩ := h.childEx p hp c hc
    exact hkeylt hcn
  have hget1_nid : alistGet (alistSet m.nodes m.next_id (spawnNode m kind item pid position))
      m.next_id = some (spawnNode m kind item pid position) := alistGet_set_eq _ _ _
  have hget1_ne : ∀ k, k ≠ m.next_id →
      alistGet (alistSet m.nodes m.next_id (spawnNode m kind item pid position)) k =
        alistGet m.nodes k :=
    fun k hk => alistGet_set_ne _ _ _ _ hk
  have hget1_pid : alistGet (alistSet m.nodes m.next_id (spawnNode m kind item pid position))
      pid = some pnode := by
    rw [hget1_ne pid hpidne]
    exact hpget
  have hattach : attachChild
      (alistSet m.nodes m.next_id (spawnNode m kind item pid position)) pid m.next_id =
      alistSet (alistSet m.nodes m.next_id (spawnNode m kind item pid position)) pid
        { pnode with children := pnode.children ++ [m.next_id] } := by
    simp only [attachChild, hget1_pid]
  rw [hattach]
  have hg2_pid : alistGet (alistSet
      (alistSet m.nodes m.next_id (spawnNode m kind item pid position)) pid
      { pnode with children := pnode.children ++ [m.next_id] }) pid =
      some { pnode with children := pnode.children ++ [m.next_id] } :=
    alistGet_set_eq _ _ _
  have hg2_nid : alistGet (alistSet
      (alistSet m.nodes m.next_id (spawnNode m kind item pid position)) pid
      { pnode with children := pnode.children ++ [m.next_id] }) m.next_id =
      some (spawnNode m kind item pid position) := by
    rw [alistGet_set_ne _ _ _ _ (fun he => hpidne he.symm)]
    exact hget1_nid
  have hg2_other : ∀ k, k ≠ pid → k ≠ m.next_id → alistGet (alistSet
      (alistSet m.nodes m.next_id (spawnNode m kind item pid position)) pid
      { pnode with children := pnode.children ++ [m.next_id] }) k =
      alistGet m.nodes k := by
    intro k h1 h2
    rw [alistGet_set_ne _ _ _ _ h1, hget1_ne k h2]
  have hmem2 : ∀ p ∈ alistSet
      (alistSet m.nodes m.next_id (spawnNode m kind item pid position)) pid
      { pnode with children := pnode.children ++ [m.next_id] },
      p = (pid, { pnode with children := pnode.children ++ [m.next_id] }) ∨
        p = (m.next_id, spawnNode m kind item pid position) ∨ p ∈ m.nodes := by
    intro p hp
    rcases alistSet_mem hp with he | hp1
    · exact Or.inl he
    · rcases alistSet_mem hp1 with he | hp2
      · exact Or.inr (Or.inl he)
      · exact Or.inr (Or.inr hp2)
  have hnd2 : (alistKeys (alistSet
      (alistSet m.nodes m.next_id (spawnNode m kind item pid position)) pid
      { pnode with children := pnode.children ++ [m.next_id] })).Nodup :=
    alistSet_nodup (alistSet_nodup h.nodup)
  have huniqp : ∀ {v : Node}, (pid, v) ∈ m.nodes → v = pnode := by
    intro v hv
    have h1 := mem_alistGet h.nodup hv
    rw [hpget] at h1
    injection h1 with h1
    exact h1.symm
  refine ⟨h.root_id_eq, ?_, hnd2, ?_, ?_, ?_, ?_, ?_, ?_, ?_, ?_, ?_, ?_, ?_, ?_, ?_, ?_⟩
  · obtain ⟨rn, hrn, hk0, hpar0, hpl0⟩ := h.rootEx
    by_cases hp0 : pid = 0
    · subst hp0
      have hpn : pnode = rn := by
        rw [hpget] at hrn
        injection hrn with hrn
      refine ⟨{ pnode with children := pnode.children ++ [m.next_id] }, hg2_pid, ?_, ?_, ?_⟩
      · show pnode.kind = NodeKind.root
        rw [hpn, hk0]
      · show pnode.parent = none
        rw [hpn, hpar0]
      · show pnode.payload = none
        rw [hpn, hpl0]
    · have h0n : (0 : Nat) ≠ m.next_id := by
        have := h.nextPos
        omega
      exact ⟨rn, (hg2_other 0 (fun he => hp0 he.symm) h0n).trans hrn, hk0, hpar0, hpl0⟩
  · intro p hp
    rcases hmem2 p hp with he | he | hp2
    · rw [he]
      exact h.keyId (pid, pnode) hpmem
    · rw [he]
      rfl
    · exact h.keyId p hp2
  · intro p hp
    rcases hmem2 p hp with he | he | hp2
    · rw [he]
      dsimp only
      omega
    · rw [he]
      dsimp only
      omega
    · have := h.keysLt p hp2
      dsimp only
      omega
  · dsimp only
    omega
  · intro p hp hne
    rcases hmem2 p hp with he | he | hp2
    · rw [he] at hne ⊢
      dsimp only at hne ⊢
      exact h.parentSome (pid, pnode) hpmem hne
    · rw [he]
      exact ⟨pid, rfl⟩
    · exact h.parentSome p hp2 hne
  · intro p hp c hc
    rcases hmem2 p hp with he | he | hp2
    · rw [he] at hc ⊢
      dsimp only at hc ⊢
      rcases List.mem_append.mp hc with hc1 | hc1
      · exact h.childUp (pid, pnode) hpmem c hc1
      · rw [List.mem_singleton] at hc1
        omega
    · rw [he] at hc
      dsimp only at hc
      simp [spawnNode] at hc
    · exact h.childUp p hp2 c hc
  · intro p hp c hc
    rcases hmem2 p hp with he | he | hp2
    · rw [he] at hc ⊢
      dsimp only at hc ⊢
      rcases List.mem_append.mp hc with hc1 | hc1
      · obtain ⟨cn, hcn, hcp⟩ := h.childEx (pid, pnode) hpmem c hc1
        have hcgt : pid < c := h.childUp (pid, pnode) hpmem c hc1
        have hclt : c < m.next_id := hchildlt (pid, pnode) hpmem c hc1
        refine ⟨cn, ?_, hcp⟩
        rw [hg2_other c (by omega) (by omega)]
        exact hcn
      · rw [List.mem_singleton] at hc1
        subst hc1
        exact ⟨spawnNode m kind item pid position, hg2_nid, rfl⟩
    · rw [he] at hc
      dsimp only at hc
      simp [spawnNode] at hc
    · obtain ⟨cn, hcn, hcp⟩ := h.childEx p hp2 c hc
      have hclt : c < m.next_id := hchildlt p hp2 c hc
      by_cases hcpid : c = pid
      · subst hcpid
        have hcn2 : cn = pnode := by
          rw [hpget] at hcn
          injection hcn with h1
          exact h1.symm
        refine ⟨{ pnode with children := pnode.children ++ [m.next_id] }, hg2_pid, ?_⟩
        show pnode.parent = some p.1
        rw [← hcn2]
        exact hcp
      · refine ⟨cn, ?_, hcp⟩
        rw [hg2_other c hcpid (by omega)]
        exact hcn
  · intro p hp
    rcases hmem2 p hp with he | he | hp2
    · rw [he]
      dsimp only
      refine List.Nodup.append (h.childNodup (pid, pnode) hpmem)
        (List.nodup_singleton _) ?_
      intro x hx hx2
      rw [List.mem_singleton] at hx2
      subst hx2
      have := hchildlt (pid, pnode) hpmem _ hx
      omega
    · rw [he]
      dsimp only
      simp [spawnNode]
    · exact h.childNodup p hp2
  · intro p hp q hq
    rcases hmem2 p hp with he | he | hp2
    · rw [he] at hq ⊢
      dsimp only at hq ⊢
      obtain ⟨qn, hqn, hqc⟩ := h.parentEx (pid, pnode) hpmem q hq
      have hqlt : q < pid := h.childUp (q, qn) (alistGet_mem hqn) pid hqc
      refine ⟨qn, ?_, hqc⟩
      rw [hg2_other q (by omega) (by omega)]
      exact hqn
    · rw [he] at hq ⊢
      dsimp only at hq ⊢
      have hq2 : some pid = some q := hq
      injection hq2 with hq2
      subst hq2
      exact ⟨{ pnode with children := pnode.children ++ [m.next_id] }, hg2_pid,
        List.mem_append.mpr (Or.inr (List.mem_singleton.mpr rfl))⟩
    · obtain ⟨qn, hqn, hqc⟩ := h.parentEx p hp2 q hq
      have hqlt : q < m.next_id := hkeylt hqn
      by_cases hqpid : q = pid
      · subst hqpid
        have hqn2 : qn = pnode := huniqp (alistGet_mem hqn)
        refine ⟨{ pnode with children := pnode.children ++ [m.next_id] }, hg2_pid, ?_⟩
        refine List.mem_append.mpr (Or.inl ?_)
        rw [← hqn2]
        exact hqc
      · refine ⟨qn, ?_, hqc⟩
        rw [hg2_other q hqpid (by omega)]
        exact hqn
  · intro i hi
    rcases List.mem_append.mp hi with hi1 | hi1
    · obtain ⟨n0, hn0⟩ := h.orderMem i hi1
      have hilt : i < m.next_id := hkeylt hn0
      by_cases hip : i = pid
      · subst hip
        exact ⟨_, hg2_pid⟩
      · refine ⟨n0, ?_⟩
        rw [hg2_other i hip (by omega)]
        exact hn0
    · rw [List.mem_singleton] at hi1
      subst hi1
      exact ⟨_, hg2_nid⟩
  · intro i hi
    rcases List.mem_append.mp hi with hi1 | hi1
    · exact h.orderPos i hi1
    · rw [List.mem_singleton] at hi1
      subst hi1
      exact h.nextPos
  · refine List.pairwise_append.mpr ⟨h.orderSorted, by simp, ?_⟩
    intro a ha b hb
    rw [List.mem_singleton] at hb
    subst hb
    obtain ⟨n0, hn0⟩ := h.orderMem a ha
    exact hkeylt hn0
  · intro p hp hne
    rcases hmem2 p hp with he | he | hp2
    · rw [he] at hne ⊢
      dsimp only at hne ⊢
      exact List.mem_append.mpr (Or.inl (h.orderComplete (pid, pnode) hpmem hne))
    · rw [he]
      exact List.mem_append.mpr (Or.inr (List.mem_singleton.mpr rfl))
    · exact List.mem_append.mpr (Or.inl (h.orderComplete p hp2 hne))
  · intro p hp hne
    rcases hmem2 p hp with he | he | hp2
    · rw [he] at hne ⊢
      dsimp only at hne ⊢
      exact h.payloadOk (pid, pnode) hpmem hne
    · rw [he]
      rfl
    · exact h.payloadOk p hp2 hne
  · intro s hs
    have hs2 : some m.next_id = some s := hs
    injection hs2 with hs2
    subst hs2
    constructor
    · have := h.nextPos
      omega
    · exact ⟨_, hg2_nid⟩

theorem removeSubtree_succ_detach {fuel : Nat} {m : EditorModel} {r : Nat}
    {node : Node} {nodes1 : List (Nat × Node)} {pid : Nat} {parent : Node}
    (hpop : alistPop m.nodes r = (some node, nodes1))
    (hnp : node.parent = some pid)
    (hget2 : alistGet (node.children.foldl (fun acc c => removeSubtree fuel acc c)
      { m with nodes := nodes1 }).nodes pid = some parent) :
    removeSubtree (fuel + 1) m r =
      { node.children.foldl (fun acc c => removeSubtree fuel acc c)
          { m with nodes := nodes1 } with
        nodes := alistSet (node.children.foldl (fun acc c => removeSubtree fuel acc c)
            { m with nodes := nodes1 }).nodes pid
          { parent with children := parent.children.filter (fun cid => cid != r) },
        order := (node.children.foldl (fun acc c => removeSubtree fuel acc c)
          { m with nodes := nodes1 }).order.filter (fun nid => nid != r) } := by
  simp only [removeSubtree, hpop, hnp]
  rw [hget2]

theorem delete_noop_nosel {m : EditorModel} (h : m.selected_id = none) :
    m.delete_selected = m := by
  simp only [EditorModel.delete_selected, h]

theorem delete_noop_stale {m : EditorModel} {s : Nat} (h : m.selected_id = some s)
    (h2 : alistGet m.nodes s = none) : m.delete_selected = m := by
  simp only [EditorModel.delete_selected, h, h2]

theorem delete_eq {m : EditorModel} {s : Nat} {node : Node} {p : Nat}
    (h : m.selected_id = some s) (h2 : alistGet m.nodes s = some node)
    (h3 : node.parent = some p) :
    m.delete_selected =
      { removeSubtree m.nodes.length m s with selected_id :=
          (if (alistGet (removeSubtree m.nodes.length m s).nodes p).isSome &&
              (p != m.root_id)
           then some p
           else
             match (removeSubtree m.nodes.length m s).order.getLast? with
             | some lastid => some lastid
             | none => none) } := by
  simp only [EditorModel.delete_selected, h, h2, h3]

theorem getLast_match_id (o : Option Nat) :
    (match o with | some lastid => some lastid | none => none) = o := by
  cases o <;> rfl

theorem delete_spec {m : EditorModel} (hInv : ModelInv m) {s : Nat}
    (hsel : m.selected_id = some s) :
    ∃ (node : Node) (p : Nat) (pn : Node) (D : List Nat),
      alistGet m.nodes s = some node ∧
      node.parent = some p ∧
      alistGet m.nodes p = some pn ∧
      s ∈ pn.children ∧ p < s ∧ s ∈ D ∧ p ∉ D ∧ D.Nodup ∧
      (∀ k, k ∈ D ↔ Desc m.nodes s k) ∧
      (∀ k ∈ D, alistGet m.delete_selected.nodes k = none) ∧
      alistGet m.delete_selected.nodes p =
        some { pn with children := pn.children.filter (fun c => c != s) } ∧
      (∀ k, k ∉ D → k ≠ p →
        alistGet m.delete_selected.nodes k = alistGet m.nodes k) ∧
      m.delete_selected.nodes.length + D.length = m.nodes.length ∧
      (alistKeys m.delete_selected.nodes).Nodup ∧
      (∀ q ∈ m.delete_selected.nodes,
        q = (p, { pn with children := pn.children.filter (fun c => c != s) }) ∨
          q ∈ m.nodes) ∧
      m.delete_selected.order = m.order.filter (fun i => decide (i ∉ D)) ∧
      m.delete_selected.selected_id =
        (if p = 0 then m.delete_selected.order.getLast? else some p) ∧
      m.delete_selected.registry = m.registry ∧
      m.delete_selected.label_counts = m.label_counts ∧
      m.delete_selected.next_id = m.next_id ∧
      m.delete_selected.root_id = m.root_id := by
  obtain ⟨hs0, node, hgetnode⟩ := hInv.selOk s hsel
  have hsmem : (s, node) ∈ m.nodes := alistGet_mem hgetnode
  obtain ⟨p, hp⟩ := hInv.parentSome (s, node) hsmem hs0
  dsimp only at hp
  obtain ⟨pn, hpn, hsc⟩ := hInv.parentEx (s, node) hsmem p hp
  dsimp only at hsc
  have hps : p < s := hInv.childUp (p, pn) (alistGet_mem hpn) s hsc
  have hpop1 : (alistPop m.nodes s).1 = some node := by
    rw [alistPop_fst]
    exact hgetnode
  rcases hpop : alistPop m.nodes s with ⟨o, nodes1⟩
  rw [hpop] at hpop1
  dsimp only at hpop1
  subst hpop1
  have hfuel : m.nodes.length = nodes1.length + 1 := by
    have h1 := alistPop_length hgetnode
    rw [hpop] at h1
    dsimp only at h1
    omega
  have hI1 : TblInv nodes1 := by
    have h1 := TblInv_pop hInv.tbl s
    rw [hpop] at h1
    exact h1
  have hr1 : alistGet nodes1 s = none := by
    have h1 := @alistGet_pop_self Nat Node _ m.nodes s hInv.nodup
    rw [hpop] at h1
    exact h1
  have hgetpop : ∀ k, k ≠ s → alistGet nodes1 k = alistGet m.nodes k := by
    intro k hk
    have h1 := alistGet_pop_ne m.nodes s k hk
    rw [hpop] at h1
    exact h1
  have hchildUpS : ∀ c ∈ node.children, s < c :=
    fun c hc => hInv.childUp (s, node) hsmem c hc
  have hpar1 : ∀ c ∈ node.children, ∀ cn,
      alistGet ({ m with nodes := nodes1 } : EditorModel).nodes c = some cn →
      cn.parent = some s := by
    intro c hc cn hcn
    change alistGet nodes1 c = some cn at hcn
    have hcne : c ≠ s := by
      have := hchildUpS c hc
      omega
    rw [hgetpop c hcne] at hcn
    obtain ⟨cn', hcn', hparode⟩ := hInv.childEx (s, node) hsmem c hc
    rw [hcn'] at hcn
    injection hcn with he
    dsimp only at hparode
    rw [he] at hparode
    exact hparode
  obtain ⟨Ds, oS⟩ := removeFold_spec nodes1.length (removeSpec_all nodes1.length)
    node.children { m with nodes := nodes1 } s hI1 le_rfl hr1 hpar1
    (hInv.childNodup (s, node) hsmem)
  have hDsgt : ∀ k ∈ Ds, s < k := by
    intro k hk
    obtain ⟨⟨c, hc, hdesc⟩, _⟩ := (oS.memD k).mp hk
    have h1 : c ≤ k := Desc_le hI1.childUp hdesc
    have h2 := hchildUpS c hc
    omega
  have hpDs : p ∉ Ds := by
    intro hk
    have := hDsgt p hk
    omega
  have hsDs : s ∉ Ds := by
    intro hk
    have := hDsgt s hk
    omega
  have hget2p : alistGet (node.children.foldl
      (fun acc c => removeSubtree nodes1.length acc c)
      { m with nodes := nodes1 }).nodes p = some pn := by
    rw [oS.getOther p hpDs]
    change alistGet nodes1 p = some pn
    rw [hgetpop p (by omega)]
    exact hpn
  have hrs : removeSubtree m.nodes.length m s =
      { node.children.foldl (fun acc c => removeSubtree nodes1.length acc c)
          { m with nodes := nodes1 } with
        nodes := alistSet (node.children.foldl
            (fun acc c => removeSubtree nodes1.length acc c)
            { m with nodes := nodes1 }).nodes p
          { pn with children := pn.children.filter (fun cid => cid != s) },
        order := (node.children.foldl (fun acc c => removeSubtree nodes1.length acc c)
          { m with nodes := nodes1 }).order.filter (fun nid => nid != s) } := by
    rw [hfuel]
    exact removeSubtree_succ_detach hpop hp hget2p
  have hdel := delete_eq hsel hgetnode hp
  rw [hrs] at hdel
  have hFnodes : m.delete_selected.nodes =
      alistSet (node.children.foldl (fun acc c => removeSubtree nodes1.length acc c)
        { m with nodes := nodes1 }).nodes p
        { pn with children := pn.children.filter (fun cid => cid != s) } := by
    rw [hdel]
  have hForder : m.delete_selected.order =
      (node.children.foldl (fun acc c => removeSubtree nodes1.length acc c)
        { m with nodes := nodes1 }).order.filter (fun nid => nid != s) := by
    rw [hdel]
  have hG_p : alistGet m.delete_selected.nodes p =
      some { pn with children := pn.children.filter (fun cid => cid != s) } := by
    rw [hFnodes]
    exact alistGet_set_eq _ _ _
  have hG_D : ∀ k ∈ s :: Ds, alistGet m.delete_selected.nodes k = none := by
    intro k hk
    rw [hFnodes]
    rcases List.mem_cons.mp hk with he | hk2
    · subst he
      rw [alistGet_set_ne _ _ _ _ (by omega), oS.getOther k hsDs]
      exact hr1
    · have hkgt := hDsgt k hk2
      rw [alistGet_set_ne _ _ _ _ (by omega)]
      exact oS.getD k hk2
  have hG_other : ∀ k, k ∉ s :: Ds → k ≠ p →
      alistGet m.delete_selected.nodes k = alistGet m.nodes k := by
    intro k hk hkp
    rw [List.mem_cons] at hk
    push_neg at hk
    rw [hFnodes, alistGet_set_ne _ _ _ _ hkp, oS.getOther k hk.2]
    exact hgetpop k hk.1
  have hsub1 : nodes1.Sublist m.nodes := by
    have h1 := alistPop_snd_sublist m.nodes s
    rw [hpop] at h1
    exact h1
  have hnd2f : (alistKeys (node.children.foldl
      (fun acc c => removeSubtree nodes1.length acc c)
      { m with nodes := nodes1 }).nodes).Nodup :=
    List.Nodup.sublist (oS.subl.map Prod.fst) hI1.nodup
  have hstab : ∀ c ∈ node.children, ∀ k, Desc nodes1 c k ↔ Desc m.nodes c k := by
    intro c hc
    apply Desc_iff_stable
    · intro k
      by_cases hk : k = s
      · rw [hk]
        exact Or.inr hr1
      · exact Or.inl (hgetpop k hk)
    · intro k hk hpres
      have hkr : k ≠ s := by
        have h1 := Desc_le hInv.childUp hk
        have h2 := hchildUpS c hc
        omega
      exact hgetpop k hkr
  have hDescPres : ∀ k, Desc m.nodes s k → (alistGet m.nodes k).isSome := by
    intro k hk
    induction hk with
    | refl => simp [hgetnode]
    | step hd hget hc ih =>
      obtain ⟨cn, hcn, _⟩ := hInv.childEx _ (alistGet_mem hget) _ hc
      simp [hcn]
  have hmemD : ∀ k, k ∈ s :: Ds ↔ Desc m.nodes s k := by
    intro k
    constructor
    · intro hk
      rcases List.mem_cons.mp hk with he | hk2
      · subst he
        exact Desc.refl
      · obtain ⟨⟨c, hc, hdesc⟩, _⟩ := (oS.memD k).mp hk2
        have hdm : Desc m.nodes c k := (hstab c hc k).mp hdesc
        exact Desc_of_child hgetnode hc hdm
    · intro hdesc
      rcases Desc_head hdesc with he | ⟨n, hn, c, hc, hdc⟩
      · rw [he]
        exact List.mem_cons_self s _
      · rw [hgetnode] at hn
        injection hn with hn
        rw [← hn] at hc
        have hkne : k ≠ s := by
          have h1 := Desc_le hInv.childUp hdc
          have h2 := hchildUpS c hc
          omega
        refine List.mem_cons_of_mem s ((oS.memD k).mpr ⟨⟨c, hc, ?_⟩, ?_⟩)
        · exact (hstab c hc k).mpr hdc
        · change (alistGet nodes1 k).isSome
          rw [hgetpop k hkne]
          exact hDescPres k hdesc
  refine ⟨node, p, pn, s :: Ds, hgetnode, hp, hpn, hsc, hps,
    List.mem_cons_self s _, ?_, ?_, hmemD, hG_D, hG_p, hG_other, ?_, ?_, ?_, ?_, ?_,
    ?_, ?_, ?_, ?_⟩
  · intro hk
    rcases List.mem_cons.mp hk with he | hk2
    · omega
    · exact hpDs hk2
  · refine List.nodup_cons.mpr ⟨hsDs, oS.nodupD⟩
  · rw [hFnodes, alistSet_length _ hget2p, List.length_cons]
    have h1 := oS.lenEq
    dsimp only at h1
    omega
  · rw [hFnodes]
    exact alistSet_nodup hnd2f
  · intro q hq
    rw [hFnodes] at hq
    rcases alistSet_mem hq with he | hq2
    · exact Or.inl he
    · exact Or.inr (hsub1.mem (oS.subl.mem hq2))
  · rw [hForder]
    have h1 := oS.orderEq
    dsimp only at h1
    rw [h1, filter_ne_notmem]
  · have hcond2 : alistGet (alistSet (node.children.foldl
        (fun acc c => removeSubtree nodes1.length acc c)
        { m with nodes := nodes1 }).nodes p
        { pn with children := pn.children.filter (fun cid => cid != s) }) p =
        some { pn with children := pn.children.filter (fun cid => cid != s) } :=
      alistGet_set_eq _ _ _
    rw [hdel]
    dsimp only
    rw [hcond2]
    simp only [Option.isSome_some, Bool.true_and]
    by_cases hp0 : p = 0
    · rw [if_pos hp0]
      have hbp : (p != m.root_id) = false := by
        rw [hInv.root_id_eq, hp0]
        rfl
      rw [hbp]
      rw [if_neg (by simp : ¬ (false = true))]
      exact getLast_match_id _
    · rw [if_neg hp0]
      have hbp : (p != m.root_id) = true := by
        rw [hInv.root_id_eq]
        simpa using hp0
      rw [hbp, if_pos rfl]
  · rw [hdel]
    exact oS.misc.1
  · rw [hdel]
    exact oS.misc.2.1
  · rw [hdel]
    exact oS.misc.2.2.1
  · rw [hdel]
    exact oS.misc.2.2.2.1

theorem getLast?_mem_list {l : List Nat} {a : Nat} (h : l.getLast? = some a) : a ∈ l := by
  induction l with
  | nil => exact absurd h (by simp)
  | cons b l ih =>
    cases l with
    | nil =>
      simp only [List.getLast?_singleton] at h
      injection h with h
      rw [h]
      exact List.mem_singleton.mpr rfl
    | cons c l2 =>
      rw [List.getLast?_cons_cons] at h
      exact List.mem_cons_of_mem _ (ih h)

theorem desc_present {m : EditorModel} (hInv : ModelInv m) {s k : Nat}
    (hs : (alistGet m.nodes s).isSome) (h : Desc m.nodes s k) :
    (alistGet m.nodes k).isSome := by
  induction h with
  | refl => exact hs
  | step hd hget hc ih =>
    obtain ⟨cn, hcn, _⟩ := hInv.childEx _ (alistGet_mem hget) _ hc
    simp [hcn]

theorem modelInv_delete {m : EditorModel} (hInv : ModelInv m) :
    ModelInv m.delete_selected := by
  rcases hsel : m.selected_id with _ | s
  · rw [delete_noop_nosel hsel]
    exact hInv
  obtain ⟨node, p, pn, D, hgetnode, hp, hpn, hsc, hps, hsD, hpD, hDnd, hmemD,
    hG_D, hG_p, hG_other, hlen, hnd', hmem', horder, hsel', hreg, hlab, hnext,
    hroot⟩ := delete_spec hInv hsel
  have hs0 : s ≠ 0 := (hInv.selOk s hsel).1
  have hDne0 : ∀ k ∈ D, k ≠ 0 := by
    intro k hk
    have hdesc := (hmemD k).mp hk
    have h1 : s ≤ k := Desc_le hInv.childUp hdesc
    omega
  have hpresD : ∀ k, k ∉ D →
      ((alistGet m.delete_selected.nodes k).isSome ↔ (alistGet m.nodes k).isSome) := by
    intro k hk
    by_cases hkp : k = p
    · subst hkp
      rw [hG_p, hpn]
      simp
    · rw [hG_other k hk hkp]
  have hinD : ∀ k, (alistGet m.delete_selected.nodes k).isSome → k ∉ D := by
    intro k hks hk
    rw [hG_D k hk] at hks
    exact absurd hks (by simp)
  have hget' : ∀ q ∈ m.delete_selected.nodes,
      alistGet m.delete_selected.nodes q.1 = some q.2 :=
    fun q hq => mem_alistGet hnd' hq
  have hclosure : ∀ k v, (k, v) ∈ m.nodes → k ∉ D → ∀ c ∈ v.children, c ∈ D →
      c = s ∧ k = p := by
    intro k v hkv hkD c hc hcD
    obtain ⟨cn, hcn, hcp⟩ := hInv.childEx (k, v) hkv c hc
    dsimp only at hcp
    have hdesc := (hmemD c).mp hcD
    cases hdesc with
    | refl =>
      refine ⟨rfl, ?_⟩
      rw [hgetnode] at hcn
      injection hcn with he
      rw [he] at hp
      rw [hp] at hcp
      injection hcp with hcp
      exact hcp.symm
    | step hd hget hcm =>
      exfalso
      obtain ⟨cn2, hcn2, hcp2⟩ := hInv.childEx _ (alistGet_mem hget) _ hcm
      rw [hcn] at hcn2
      injection hcn2 with he2
      dsimp only at hcp2
      rw [← he2] at hcp2
      rw [hcp2] at hcp
      injection hcp with hqk
      apply hkD
      rw [← hqk]
      exact (hmemD _).mpr (Desc_trans hd (Desc.refl))
  have horderMem : ∀ i, i ∈ m.delete_selected.order ↔ (i ∈ m.order ∧ i ∉ D) := by
    intro i
    rw [horder]
    simp [List.mem_filter]
  have huniqpn : ∀ {v : Node}, (p, v) ∈ m.nodes → v = pn := by
    intro v hv
    have h1 := mem_alistGet hInv.nodup hv
    rw [hpn] at h1
    injection h1 with h1
    exact h1.symm
  refine ⟨?_, ?_, hnd', ?_, ?_, ?_, ?_, ?_, ?_, ?_, ?_, ?_, ?_, ?_, ?_, ?_, ?_⟩
  · rw [hroot]
    exact hInv.root_id_eq
  · obtain ⟨rn, hrn, hk0, hpar0, hpl0⟩ := hInv.rootEx
    have h0D : 0 ∉ D := fun hh => hDne0 0 hh rfl
    by_cases h0p : p = 0
    · subst h0p
      have hpnrn : pn = rn := by
        rw [hpn] at hrn
        injection hrn with h1
      refine ⟨{ pn with children := pn.children.filter (fun c => c != s) }, hG_p,
        ?_, ?_, ?_⟩
      · show pn.kind = NodeKind.root
        rw [hpnrn, hk0]
      · show pn.parent = none
        rw [hpnrn, hpar0]
      · show pn.payload = none
        rw [hpnrn, hpl0]
    · refine ⟨rn, ?_, hk0, hpar0, hpl0⟩
      rw [hG_other 0 h0D (fun he => h0p he.symm)]
      exact hrn
  · intro q hq
    rcases hmem' q hq with he | hq2
    · rw [he]
      exact hInv.keyId (p, pn) (alistGet_mem hpn)
    · exact hInv.keyId q hq2
  · intro q hq
    rw [hnext]
    rcases hmem' q hq with he | hq2
    · rw [he]
      exact hInv.keysLt (p, pn) (alistGet_mem hpn)
    · exact hInv.keysLt q hq2
  · rw [hnext]
    exact hInv.nextPos
  · intro q hq hne
    rcases hmem' q hq with he | hq2
    · rw [he] at hne ⊢
      dsimp only at hne ⊢
      exact hInv.parentSome (p, pn) (alistGet_mem hpn) hne
    · exact hInv.parentSome q hq2 hne
  · intro q hq c hc
    rcases hmem' q hq with he | hq2
    · rw [he] at hc ⊢
      dsimp only at hc ⊢
      have hc2 := (List.mem_filter.mp hc).1
      exact hInv.childUp (p, pn) (alistGet_mem hpn) c hc2
    · exact hInv.childUp q hq2 c hc
  · intro q hq c hc
    have hkD : q.1 ∉ D := hinD q.1 (by rw [hget' q hq]; rfl)
    rcases hmem' q hq with he | hq2
    · rw [he] at hc ⊢
      dsimp only at hc ⊢
      have hc2 := List.mem_filter.mp hc
      have hcs : c ≠ s := by simpa using hc2.2
      obtain ⟨cn, hcn, hcp⟩ := hInv.childEx (p, pn) (alistGet_mem hpn) c hc2.1
      have hcD : c ∉ D := by
        intro hcd
        exact hcs (hclosure p pn (alistGet_mem hpn) hpD c hc2.1 hcd).1
      have hcnp : c ≠ p := by
        have := hInv.childUp (p, pn) (alistGet_mem hpn) c hc2.1
        omega
      refine ⟨cn, ?_, hcp⟩
      rw [hG_other c hcD hcnp]
      exact hcn
    · obtain ⟨cn, hcn, hcp⟩ := hInv.childEx q hq2 c hc
      have hcD : c ∉ D := by
        intro hcd
        obtain ⟨hcs, hqp⟩ := hclosure q.1 q.2 hq2 hkD c hc hcd
        have hv : q.2 = { pn with children := pn.children.filter (fun c => c != s) } := by
          have h1 := hget' q hq
          rw [hqp] at h1
          rw [hG_p] at h1
          injection h1 with h1
          exact h1.symm
        rw [hv] at hc
        rw [hcs] at hc
        have := (List.mem_filter.mp hc).2
        simp at this
      by_cases hcp2 : c = p
      · subst hcp2
        have hcnpn : cn = pn := huniqpn (alistGet_mem hcn)
        refine ⟨{ pn with children := pn.children.filter (fun c => c != s) }, hG_p, ?_⟩
        show pn.parent = some q.1
        rw [← hcnpn]
        exact hcp
      · refine ⟨cn, ?_, hcp⟩
        rw [hG_other c hcD hcp2]
        exact hcn
  · intro q hq
    rcases hmem' q hq with he | hq2
    · rw [he]
      dsimp only
      exact List.Nodup.filter _ (hInv.childNodup (p, pn) (alistGet_mem hpn))
    · exact hInv.childNodup q hq2
  · intro q hq t ht
    have hkD : q.1 ∉ D := hinD q.1 (by rw [hget' q hq]; rfl)
    have hbase : ∃ qn, alistGet m.nodes t = some qn ∧ q.1 ∈ qn.children := by
      rcases hmem' q hq with he | hq2
      · rw [he] at ht ⊢
        dsimp only at ht ⊢
        exact hInv.parentEx (p, pn) (alistGet_mem hpn) t ht
      · exact hInv.parentEx q hq2 t ht
    obtain ⟨qn, hqn, hqc⟩ := hbase
    have htD : t ∉ D := by
      intro htd
      apply hkD
      rw [hmemD]
      exact Desc.step ((hmemD t).mp htd) hqn hqc
    by_cases htp : t = p
    · subst htp
      have hqnpn : qn = pn := huniqpn (alistGet_mem hqn)
      refine ⟨{ pn with children := pn.children.filter (fun c => c != s) }, hG_p, ?_⟩
      dsimp only
      rw [List.mem_filter]
      constructor
      · rw [← hqnpn]
        exact hqc
      · have : q.1 ≠ s := by
          intro he
          apply hkD
          rw [he, hmemD]
          exact Desc.refl
        simpa using this
    · refine ⟨qn, ?_, hqc⟩
      rw [hG_other t htD htp]
      exact hqn
  · intro i hi
    obtain ⟨hi1, hi2⟩ := (horderMem i).mp hi
    obtain ⟨n0, hn0⟩ := hInv.orderMem i hi1
    have := (hpresD i hi2).mpr (by simp [hn0])
    rcases hgm : alistGet m.delete_selected.nodes i with _ | n1
    · rw [hgm] at this
      exact absurd this (by simp)
    · exact ⟨n1, rfl⟩
  · intro i hi
    exact hInv.orderPos i ((horderMem i).mp hi).1
  · rw [horder]
    exact List.Pairwise.sublist (List.filter_sublist _) hInv.orderSorted
  · intro q hq hne
    have hkD : q.1 ∉ D := hinD q.1 (by rw [hget' q hq]; rfl)
    rw [horderMem]
    rcases hmem' q hq with he | hq2
    · rw [he] at hne ⊢
      dsimp only at hne ⊢
      exact ⟨hInv.orderComplete (p, pn) (alistGet_mem hpn) hne, hpD⟩
    · exact ⟨hInv.orderComplete q hq2 hne, hkD⟩
  · intro q hq hne
    rcases hmem' q hq with he | hq2
    · rw [he] at hne ⊢
      dsimp only at hne ⊢
      exact hInv.payloadOk (p, pn) (alistGet_mem hpn) hne
    · exact hInv.payloadOk q hq2 hne
  · intro t ht
    rw [hsel'] at ht
    by_cases hp0 : p = 0
    · rw [if_pos hp0] at ht
      have htmem : t ∈ m.delete_selected.order := getLast?_mem_list ht
      obtain ⟨ht1, ht2⟩ := (horderMem t).mp htmem
      constructor
      · have := hInv.orderPos t ht1
        omega
      · obtain ⟨n0, hn0⟩ := hInv.orderMem t ht1
        have hsome := (hpresD t ht2).mpr (by simp [hn0])
        rcases hgm : alistGet m.delete_selected.nodes t with _ | n1
        · rw [hgm] at hsome
          exact absurd hsome (by simp)
        · exact ⟨n1, rfl⟩
    · rw [if_neg hp0] at ht
      injection ht with ht
      rw [← ht]
      exact ⟨hp0, ⟨_, hG_p⟩⟩

theorem reachable_inv {m : EditorModel} (h : Reachable m) : ModelInv m := by
  induction h with
  | init registry => exact modelInv_init registry
  | spawn kind idx position parent_hint _ ih =>
    exact modelInv_spawn ih kind idx position parent_hint
  | select node_id _ ih => exact modelInv_select_node ih node_id
  | selectAt mouse_pos _ ih => exact modelInv_select_at_position ih mouse_pos
  | move canvas_rect desired _ ih => exact modelInv_move ih canvas_rect desired
  | delete _ ih => exact modelInv_delete ih

/-! ### Concrete states used by the witnesses -/

/-- A concrete palette registry: one item per kind at index 0, with radius-1
payloads carrying their spawn position. -/
def demoRegistry : PaletteRegistry :=
  ⟨fun k i =>
    if i = 0 then
      some { name := (match k with | .entity => "Ent" | .environment => "Env"),
             factory := fun pos => { pos := some pos, radius := 1 } }
    else none⟩

/-- The model after one environment spawn from the initial state. -/
def demoM1 : EditorModel :=
  ((EditorModel.init demoRegistry).spawn_from_palette PaletteKind.environment 0
    (10, 10) none).2

/-- The model after an environment spawn and then an entity spawn. -/
def demoM2 : EditorModel :=
  (demoM1.spawn_from_palette PaletteKind.entity 0 (20, 20) none).2

theorem demoM1_reachable : Reachable demoM1 :=
  Reachable.spawn _ _ _ _ (Reachable.init demoRegistry)

theorem demoM2_reachable : Reachable demoM2 :=
  Reachable.spawn _ _ _ _ demoM1_reachable

/-- The node created by the environment spawn of `demoM1`. -/
def demoEnvNode : Node :=
  { id := 1, kind := NodeKind.environment, name := "Env", base_name := "Env",
    payload := some { pos := some ⟨((10 : Int) : ℚ), ((10 : Int) : ℚ)⟩, radius := 1 },
    parent := some 0, children := [] }

/-! ### Claims C9 and C10 -/

/-- Claim C9: in every model state reachable from initialization by any
sequence of the public operations, the selection is either absent or
references a node id that exists in the node table and is not the root's
id. -/
theorem claim_C9_selection_valid {m : EditorModel} (h : Reachable m) :
    ∀ s, m.selected_id = some s →
      s ≠ m.root_id ∧ ∃ n, alistGet m.nodes s = some n := by
  intro s hs
  have hInv := reachable_inv h
  obtain ⟨h1, h2⟩ := hInv.selOk s hs
  rw [hInv.root_id_eq]
  exact ⟨h1, h2⟩

theorem claim_C9_witness :
    (1 : Nat) ≠ demoM1.root_id ∧ ∃ n, alistGet demoM1.nodes 1 = some n :=
  claim_C9_selection_valid demoM1_reachable 1 (by rfl)

/-- Claim C10: in every reachable model state, the children lists are
consistent with the table and the parent links: every child id in a node's
children list exists in the table and that child's parent is the node's
id. -/
theorem claim_C10_children_consistent {m : EditorModel} (h : Reachable m) :
    ∀ p ∈ m.nodes, ∀ c ∈ p.2.children,
      ∃ cn, alistGet m.nodes c = some cn ∧ cn.parent = some p.1 :=
  (reachable_inv h).childEx

theorem claim_C10_witness :
    ∃ cn, alistGet demoM1.nodes 1 = some cn ∧ cn.parent = some 0 :=
  claim_C10_children_consistent demoM1_reachable
    (0, { sceneRoot with children := [1] }) (by decide) 1 (by decide)

/-! ### Claim C3 -/

/-- Claim C3: for every reachable model state with a selected node,
`delete_selected` removes exactly the ids of the selected node's subtree
from the node table, from the creation-order list, and from every remaining
node's children list; the table shrinks by exactly the subtree's node
count, and no node outside the subtree is removed. -/
theorem claim_C3_delete_subtree {m : EditorModel} (h : Reachable m) {s : Nat}
    (hsel : m.selected_id = some s) :
    ∃ D : List Nat, D.Nodup ∧ (∀ k, k ∈ D ↔ Desc m.nodes s k) ∧
      (∀ k ∈ D, alistGet m.delete_selected.nodes k = none ∧
        k ∉ m.delete_selected.order ∧
        ∀ j nj, alistGet m.delete_selected.nodes j = some nj → k ∉ nj.children) ∧
      (∀ k, k ∉ D →
        ((alistGet m.delete_selected.nodes k).isSome ↔
          (alistGet m.nodes k).isSome) ∧
        (k ∈ m.delete_selected.order ↔ k ∈ m.order)) ∧
      m.delete_selected.nodes.length + D.length = m.nodes.length := by
  have hInv := reachable_inv h
  obtain ⟨node, p, pn, D, hgetnode, hp, hpn, hsc, hps, hsD, hpD, hDnd, hmemD,
    hG_D, hG_p, hG_other, hlen, hnd', hmem', horder, hsel', _, _, _, _⟩ :=
    delete_spec hInv hsel
  have hInv' := modelInv_delete hInv
  refine ⟨D, hDnd, hmemD, ?_, ?_, hlen⟩
  · intro k hk
    refine ⟨hG_D k hk, ?_, ?_⟩
    · rw [horder]
      intro hmem
      have h2 := (List.mem_filter.mp hmem).2
      simp only [decide_eq_true_eq] at h2
      exact h2 hk
    · intro j nj hj hkc
      obtain ⟨cn, hcn, _⟩ := hInv'.childEx (j, nj) (alistGet_mem hj) k hkc
      rw [hG_D k hk] at hcn
      exact Option.noConfusion hcn
  · intro k hk
    constructor
    · by_cases hkp : k = p
      · subst hkp
        rw [hG_p, hpn]
        simp
      · rw [hG_other k hk hkp]
    · rw [horder]
      simp [List.mem_filter, hk]

theorem claim_C3_witness :
    ∃ D : List Nat, D.Nodup ∧ (∀ k, k ∈ D ↔ Desc demoM1.nodes 1 k) ∧
      (∀ k ∈ D, alistGet demoM1.delete_selected.nodes k = none ∧
        k ∉ demoM1.delete_selected.order ∧
        ∀ j nj, alistGet demoM1.delete_selected.nodes j = some nj → k ∉ nj.children) ∧
      (∀ k, k ∉ D →
        ((alistGet demoM1.delete_selected.nodes k).isSome ↔
          (alistGet demoM1.nodes k).isSome) ∧
        (k ∈ demoM1.delete_selected.order ↔ k ∈ demoM1.order)) ∧
      demoM1.delete_selected.nodes.length + D.length = demoM1.nodes.length :=
  claim_C3_delete_subtree demoM1_reachable (by rfl)

/-! ### Claim C4 -/

theorem sorted_getLast_max : ∀ (l : List Nat), l.Pairwise (· < ·) →
    ∀ x, l.getLast? = some x → ∀ y ∈ l, y ≤ x := by
  intro l
  induction l with
  | nil =>
    intro _ x hx
    simp at hx
  | cons b l ih =>
    intro hs x hx y hy
    cases l with
    | nil =>
      simp only [List.getLast?_singleton] at hx
      injection hx with hx
      rcases List.mem_singleton.mp hy with he
      omega
    | cons c l2 =>
      rw [List.getLast?_cons_cons] at hx
      rcases List.mem_cons.mp hy with he | hy2
      · have hbx : b < x :=
          (List.pairwise_cons.mp hs).1 x (getLast?_mem_list hx)
        omega
      · exact ih (List.pairwise_cons.mp hs).2 x hx y hy2

/-- Claim C4: for every reachable model state with a selected node, after
`delete_selected` removes the subtree the new selection follows exactly
this policy: the deleted node's original parent when it survives and is not
the root, else the most-recently-created (largest-id) remaining non-root
node, else nothing.  (The parent always survives in reachable states.) -/
theorem claim_C4_delete_selection {m : EditorModel} (h : Reachable m) {s : Nat}
    (hsel : m.selected_id = some s) :
    ∃ node p, alistGet m.nodes s = some node ∧ node.parent = some p ∧
      (alistGet m.delete_selected.nodes p).isSome ∧
      (p ≠ m.root_id → m.delete_selected.selected_id = some p) ∧
      (p = m.root_id →
        ((∃ k nk, alistGet m.delete_selected.nodes k = some nk ∧ k ≠ m.root_id) →
          ∃ l, m.delete_selected.selected_id = some l ∧
            (∃ nl, alistGet m.delete_selected.nodes l = some nl) ∧ l ≠ m.root_id ∧
            ∀ k nk, alistGet m.delete_selected.nodes k = some nk → k ≠ m.root_id →
              k ≤ l) ∧
        ((∀ k nk, alistGet m.delete_selected.nodes k = some nk → k = m.root_id) →
          m.delete_selected.selected_id = none)) := by
  have hInv := reachable_inv h
  obtain ⟨node, p, pn, D, hgetnode, hp, hpn, hsc, hps, hsD, hpD, hDnd, hmemD,
    hG_D, hG_p, hG_other, hlen, hnd', hmem', horder, hsel', _, _, _, hroot⟩ :=
    delete_spec hInv hsel
  have hInv' := modelInv_delete hInv
  rw [hInv.root_id_eq]
  refine ⟨node, p, hgetnode, hp, by rw [hG_p]; rfl, ?_, ?_⟩
  · intro hp0
    rw [hsel', if_neg hp0]
  · intro hp0
    constructor
    · rintro ⟨k, nk, hk, hk0⟩
      have hkmem : k ∈ m.delete_selected.order :=
        hInv'.orderComplete (k, nk) (alistGet_mem hk) hk0
      have hne : m.delete_selected.order ≠ [] := by
        intro hnil
        rw [hnil] at hkmem
        simp at hkmem
      obtain ⟨l, hl⟩ : ∃ l, m.delete_selected.order.getLast? = some l := by
        rcases hgl : m.delete_selected.order.getLast? with _ | l
        · rw [List.getLast?_eq_none_iff] at hgl
          exact absurd hgl hne
        · exact ⟨l, rfl⟩
      have hlmem : l ∈ m.delete_selected.order := getLast?_mem_list hl
      obtain ⟨nl, hnl⟩ := hInv'.orderMem l hlmem
      refine ⟨l, ?_, ⟨nl, hnl⟩, ?_, ?_⟩
      · rw [hsel', if_pos hp0, hl]
      · have := hInv'.orderPos l hlmem
        omega
      · intro k2 nk2 hk2 hk20
        have hk2mem : k2 ∈ m.delete_selected.order :=
          hInv'.orderComplete (k2, nk2) (alistGet_mem hk2) hk20
        exact sorted_getLast_max _ hInv'.orderSorted l hl k2 hk2mem
    · intro hall
      have hnil : m.delete_selected.order = [] := by
        rcases hord : m.delete_selected.order with _ | ⟨i, rest⟩
        · rfl
        · exfalso
          have hi : i ∈ m.delete_selected.order := by
            rw [hord]
            exact List.mem_cons_self i rest
          obtain ⟨ni, hni⟩ := hInv'.orderMem i hi
          have := hall i ni hni
          have h2 := hInv'.orderPos i hi
          omega
      rw [hsel', if_pos hp0, hnil]
      rfl

theorem claim_C4_witness :
    ∃ node p, alistGet demoM2.nodes 2 = some node ∧ node.parent = some p ∧
      (alistGet demoM2.delete_selected.nodes p).isSome ∧
      (p ≠ demoM2.root_id → demoM2.delete_selected.selected_id = some p) ∧
      (p = demoM2.root_id →
        ((∃ k nk, alistGet demoM2.delete_selected.nodes k = some nk ∧
            k ≠ demoM2.root_id) →
          ∃ l, demoM2.delete_selected.selected_id = some l ∧
            (∃ nl, alistGet demoM2.delete_selected.nodes l = some nl) ∧
            l ≠ demoM2.root_id ∧
            ∀ k nk, alistGet demoM2.delete_selected.nodes k = some nk →
              k ≠ demoM2.root_id → k ≤ l) ∧
        ((∀ k nk, alistGet demoM2.delete_selected.nodes k = some nk →
            k = demoM2.root_id) →
          demoM2.delete_selected.selected_id = none)) :=
  claim_C4_delete_selection demoM2_reachable (by rfl)

/-! ### Claim C5 -/

/-- Claim C5: a spawn fails exactly when the registry lookup or the parent
resolution fails, and a failed spawn returns the model completely
unchanged. -/
theorem claim_C5_failed_spawn_unchanged (m : EditorModel) (kind : PaletteKind)
    (idx : Nat) (position : Int × Int) (parent_hint : Option Nat) :
    ((m.spawn_from_palette kind idx position parent_hint).1 = none ↔
      (m.registry.get_item kind idx = none ∨
        m.resolve_parent kind parent_hint = none)) ∧
    ((m.spawn_from_palette kind idx position parent_hint).1 = none →
      (m.spawn_from_palette kind idx position parent_hint).2 = m) := by
  rcases hitem : m.registry.get_item kind idx with _ | item
  · rw [spawn_fail_item hitem]
    simp
  · rcases hres : m.resolve_parent kind parent_hint with _ | pid
    · rw [spawn_fail_parent hitem hres]
      simp
    · rw [spawn_succ_eq hitem hres]
      simp

theorem claim_C5_witness :
    ((EditorModel.init demoRegistry).spawn_from_palette PaletteKind.entity 0
      (0, 0) none).1 = none ∧
    ((EditorModel.init demoRegistry).spawn_from_palette PaletteKind.entity 0
      (0, 0) none).2 = EditorModel.init demoRegistry := by
  have h := claim_C5_failed_spawn_unchanged (EditorModel.init demoRegistry)
    PaletteKind.entity 0 (0, 0) none
  have h1 : ((EditorModel.init demoRegistry).spawn_from_palette PaletteKind.entity 0
      (0, 0) none).1 = none :=
    h.1.mpr (Or.inr (by rfl))
  exact ⟨h1, h.2 h1⟩

/-! ### Claim C1 -/

/-- The eligibility test as the spec's table states it: the candidate must
name an existing node whose kind the table allows to contain the child
kind (Entity under Environment; Environment under Root or Entity). -/
def specEligible (m : EditorModel) (c : Nat) (kind : PaletteKind) : Bool :=
  match alistGet m.nodes c, kind with
  | some n, .entity => n.kind == NodeKind.environment
  | some n, .environment => (n.kind == NodeKind.root) || (n.kind == NodeKind.entity)
  | none, _ => false

/-- The ordered candidate list from the spec: the parent hint, then the
current selection when it differs from the hint, then the root. -/
def specCandidates (m : EditorModel) (parent_hint : Option Nat) : List (Option Nat) :=
  [parent_hint] ++ (if m.selected_id = parent_hint then [] else [m.selected_id])
    ++ [some m.root_id]

/-- The first candidate of a list satisfying the spec's eligibility table
(absent candidates are skipped). -/
def specFirstEligible (m : EditorModel) (kind : PaletteKind) : List (Option Nat) → Option Nat
  | [] => none
  | none :: rest => specFirstEligible m kind rest
  | some c :: rest =>
    if specEligible m c kind then some c else specFirstEligible m kind rest

theorem parent_allows_eq_specEligible (m : EditorModel) (c : Nat) (kind : PaletteKind) :
    m.parent_allows c kind = specEligible m c kind := by
  rcases hget : alistGet m.nodes c with _ | n <;> cases kind <;>
    simp [EditorModel.parent_allows, specEligible, hget]

theorem resolveFrom_eq_specFirstEligible (m : EditorModel) (kind : PaletteKind) :
    ∀ cands, resolveFrom m kind cands = specFirstEligible m kind cands := by
  intro cands
  induction cands with
  | nil => rfl
  | cons o rest ih =>
    cases o with
    | none =>
      rw [resolveFrom, specFirstEligible]
      exact ih
    | some c =>
      rw [resolveFrom, specFirstEligible, parent_allows_eq_specEligible]
      by_cases hs : specEligible m c kind
      · rw [if_pos hs, if_pos hs]
      · rw [if_neg hs, if_neg hs]
        exact ih

/-- Claim C1: for every `spawn_from_palette` call, the effective parent is
the first candidate in the ordered spec list (hint, selection when it
differs from the hint, root) that satisfies the eligibility table; when no
candidate qualifies, the spawn returns no node. -/
theorem claim_C1_parent_resolution (m : EditorModel) (kind : PaletteKind) (idx : Nat)
    (position : Int × Int) (parent_hint : Option Nat) :
    m.resolve_parent kind parent_hint =
      specFirstEligible m kind (specCandidates m parent_hint) ∧
    (∀ node m2, m.spawn_from_palette kind idx position parent_hint = (some node, m2) →
      specFirstEligible m kind (specCandidates m parent_hint) = node.parent) ∧
    (specFirstEligible m kind (specCandidates m parent_hint) = none →
      (m.spawn_from_palette kind idx position parent_hint).1 = none) := by
  have hre : m.resolve_parent kind parent_hint =
      specFirstEligible m kind (specCandidates m parent_hint) := by
    rw [EditorModel.resolve_parent, specCandidates, resolveFrom_eq_specFirstEligible]
  refine ⟨hre, ?_, ?_⟩
  · intro node m2 hsp
    rcases hitem : m.registry.get_item kind idx with _ | item
    · rw [spawn_fail_item hitem] at hsp
      injection hsp with h1 _
      exact Option.noConfusion h1
    · rcases hres : m.resolve_parent kind parent_hint with _ | pid
      · rw [spawn_fail_parent hitem hres] at hsp
        injection hsp with h1 _
        exact Option.noConfusion h1
      · rw [spawn_succ_eq hitem hres] at hsp
        injection hsp with h1 _
        injection h1 with h1
        rw [← hre, hres, ← h1]
        rfl
  · intro hnone
    rcases hitem : m.registry.get_item kind idx with _ | item
    · rw [spawn_fail_item hitem]
    · rw [spawn_fail_parent hitem (hre.trans hnone)]

theorem claim_C1_witness :
    specFirstEligible (EditorModel.init demoRegistry) PaletteKind.environment
      (specCandidates (EditorModel.init demoRegistry) none) = some 0 ∧
    (EditorModel.init demoRegistry).resolve_parent PaletteKind.environment none =
      some 0 := by
  have h := claim_C1_parent_resolution (EditorModel.init demoRegistry)
    PaletteKind.environment 0 (10, 10) none
  constructor
  · rw [← h.1]
    rfl
  · rw [h.1, ← h.1]
    rfl

/-! ### Claim C2 -/

/-- A registry whose payloads have radius 100: larger than half the canvas
used below, so the clamp interval is inverted. -/
def bigRegistry : PaletteRegistry :=
  ⟨fun _ i =>
    if i = 0 then
      some { name := "Big", factory := fun pos => { pos := some pos, radius := 100 } }
    else none⟩

/-- A reachable state whose selected node has radius 100. -/
def mC6 : EditorModel :=
  ((EditorModel.init bigRegistry).spawn_from_palette PaletteKind.environment 0
    (25, 25) none).2

/-- A 50-by-50 canvas: smaller than the selected node's diameter. -/
def rectC6 : Rect := { left := 0, top := 0, width := 50, height := 50 }

/-- The selected node of `mC6` before the move. -/
def bigNodeBefore : Node :=
  { id := 1, kind := NodeKind.environment, name := "Big", base_name := "Big",
    payload := some { pos := some ⟨((25 : Int) : ℚ), ((25 : Int) : ℚ)⟩, radius := 100 },
    parent := some 0, children := [] }

/-- The selected node of `mC6` after the move: pinned at x = 100, outside
the claimed interval whose upper end is right - radius = -50. -/
def bigNodeAfter : Node :=
  { bigNodeBefore with payload := some { pos := some ⟨100, 100⟩, radius := 100 } }

/-- Counterexample to claim C6 as stated: in the reachable state `mC6`
(selected node with positioned payload of radius 100), moving within the
50-wide canvas `rectC6` to the desired position (25, 25) leaves the
payload position at x = 100, which does not lie within
[left + radius, right - radius] = [100, -50] because the interval is
inverted; the clamp `max(low, min(high, desired))` pins the node to the
near edge instead. -/
theorem claim_C6_counterexample :
    Reachable mC6 ∧ mC6.selected_id = some 1 ∧
    alistGet mC6.nodes 1 = some bigNodeBefore ∧
    bigNodeBefore.position.isSome ∧
    ∃ node2 pos2,
      alistGet (mC6.move_selected_within rectC6 ⟨25, 25⟩).nodes 1 = some node2 ∧
      node2.position = some pos2 ∧
      ¬ (pos2.x ≤ (rectC6.right : ℚ) - node2.radius) := by
  have hsel : mC6.selected_id = some 1 := rfl
  have hget : alistGet mC6.nodes 1 = some bigNodeBefore := rfl
  refine ⟨Reachable.spawn _ _ _ _ (Reachable.init bigRegistry), hsel, hget, rfl, ?_⟩
  have hpl : bigNodeBefore.payload =
      some { pos := some ⟨((25 : Int) : ℚ), ((25 : Int) : ℚ)⟩, radius := 100 } := rfl
  simp only [EditorModel.move_selected_within, hsel, hget, hpl]
  refine ⟨_, _, alistGet_set_eq _ _ _, rfl, ?_⟩
  norm_num [rectC6, Rect.right, Rect.left, bigNodeBefore, Node.radius, max_def, min_def]

/-- Claim C6 amended: `move_selected_within` clamps each axis independently
by max(bound.min + radius, min(bound.max - radius, desired)). On every axis
whose clamp interval is not inverted (twice the selected node's radius fits
the bound's extent there), the written position lies within
[bound.min + radius, bound.max - radius] on that axis; on an axis whose
interval is inverted, the position is instead pinned to bound.min + radius.
Both clauses hold per axis, for every desired position. -/
theorem claim_C6_move_clamped {m : EditorModel} {sid : Nat} {node : Node}
    {payload : Payload} {pos : Vector2} (canvas_rect : Rect) (desired : Vector2)
    (hsel : m.selected_id = some sid)
    (hget : alistGet m.nodes sid = some node)
    (hpl : node.payload = some payload)
    (hpos : payload.pos = some pos) :
    ∃ node2 pos2,
      alistGet (m.move_selected_within canvas_rect desired).nodes sid = some node2 ∧
      node2.position = some pos2 ∧
      ((canvas_rect.left : ℚ) + node.radius ≤ (canvas_rect.right : ℚ) - node.radius →
        (canvas_rect.left : ℚ) + node.radius ≤ pos2.x ∧
        pos2.x ≤ (canvas_rect.right : ℚ) - node.radius) ∧
      ((canvas_rect.right : ℚ) - node.radius < (canvas_rect.left : ℚ) + node.radius →
        pos2.x = (canvas_rect.left : ℚ) + node.radius) ∧
      ((canvas_rect.top : ℚ) + node.radius ≤ (canvas_rect.bottom : ℚ) - node.radius →
        (canvas_rect.top : ℚ) + node.radius ≤ pos2.y ∧
        pos2.y ≤ (canvas_rect.bottom : ℚ) - node.radius) ∧
      ((canvas_rect.bottom : ℚ) - node.radius < (canvas_rect.top : ℚ) + node.radius →
        pos2.y = (canvas_rect.top : ℚ) + node.radius) := by
  simp only [EditorModel.move_selected_within, hsel, hget, hpl, hpos]
  refine ⟨_, _, alistGet_set_eq _ _ _, rfl, ?_, ?_, ?_, ?_⟩
  · intro hx
    exact ⟨le_max_left _ _, max_le hx (min_le_left _ _)⟩
  · intro hx
    exact max_eq_left (le_of_lt (lt_of_le_of_lt (min_le_left _ _) hx))
  · intro hy
    exact ⟨le_max_left _ _, max_le hy (min_le_left _ _)⟩
  · intro hy
    exact max_eq_left (le_of_lt (lt_of_le_of_lt (min_le_left _ _) hy))

theorem claim_C6_witness :
    ∃ node2 pos2,
      alistGet (demoM1.move_selected_within rectC6 ⟨200, -200⟩).nodes 1 = some node2 ∧
      node2.position = some pos2 ∧
      ((rectC6.left : ℚ) + demoEnvNode.radius ≤ (rectC6.right : ℚ) - demoEnvNode.radius →
        (rectC6.left : ℚ) + demoEnvNode.radius ≤ pos2.x ∧
        pos2.x ≤ (rectC6.right : ℚ) - demoEnvNode.radius) ∧
      ((rectC6.right : ℚ) - demoEnvNode.radius < (rectC6.left : ℚ) + demoEnvNode.radius →
        pos2.x = (rectC6.left : ℚ) + demoEnvNode.radius) ∧
      ((rectC6.top : ℚ) + demoEnvNode.radius ≤ (rectC6.bottom : ℚ) - demoEnvNode.radius →
        (rectC6.top : ℚ) + demoEnvNode.radius ≤ pos2.y ∧
        pos2.y ≤ (rectC6.bottom : ℚ) - demoEnvNode.radius) ∧
      ((rectC6.bottom : ℚ) - demoEnvNode.radius < (rectC6.top : ℚ) + demoEnvNode.radius →
        pos2.y = (rectC6.top : ℚ) + demoEnvNode.radius) :=
  claim_C6_move_clamped rectC6 ⟨200, -200⟩ (by rfl) (by rfl) (by rfl) (by rfl)

/-! ### Claim C7 -/

/-- Squared Euclidean distance from the mouse point to a node's position
(zero for a node without one; only used on positioned nodes). -/
def sqDistTo (mouse : Int × Int) (n : Node) : ℚ :=
  match n.position with
  | none => 0
  | some pos => ((mouse.1 : ℚ) - pos.x) * ((mouse.1 : ℚ) - pos.x) +
      ((mouse.2 : ℚ) - pos.y) * ((mouse.2 : ℚ) - pos.y)

/-- The nodes `select_at_position` actually considers: drawable (payload
present) nodes, in creation order, that also have a position. -/
def positionedNodes (m : EditorModel) : List Node :=
  m.iter_drawable_nodes.filter (fun n => n.position.isSome)

/-- Loop invariant of `selectScan`: the accumulator holds the id and
squared distance of the first closest node among the already-scanned
positioned nodes (strictly closer than everything before it, at least as
close as everything after it). -/
def ScanAcc (mouse : Int × Int) (h : List Node) (acc : Option Nat × Option ℚ) : Prop :=
  (acc = (none, none) ∧ h = []) ∨
  (∃ pre n post, h = pre ++ n :: post ∧
    acc = (some n.id, some (sqDistTo mouse n)) ∧
    (∀ a ∈ pre, sqDistTo mouse n < sqDistTo mouse a) ∧
    (∀ a ∈ post, sqDistTo mouse n ≤ sqDistTo mouse a))

theorem selectScan_spec (mouse : Int × Int) :
    ∀ (l : List Node) (h : List Node) (acc : Option Nat × Option ℚ),
      ScanAcc mouse h acc →
      ScanAcc mouse (h ++ l.filter (fun n => n.position.isSome))
        (selectScan mouse l acc) := by
  intro l
  induction l with
  | nil =>
    intro h acc hinv
    simpa [selectScan] using hinv
  | cons nd rest ih =>
    intro h acc hinv
    rcases hpos : nd.position with _ | pos
    · have hfil : (nd :: rest).filter (fun n => n.position.isSome) =
          rest.filter (fun n => n.position.isSome) := by
        simp [List.filter_cons, hpos]
      rw [hfil]
      simp only [selectScan, hpos]
      exact ih h acc hinv
    · have hfil : (nd :: rest).filter (fun n => n.position.isSome) =
          nd :: rest.filter (fun n => n.position.isSome) := by
        simp [List.filter_cons, hpos]
      rw [hfil]
      obtain ⟨aid, ad⟩ := acc
      simp only [selectScan, hpos]
      have hd2 : ((mouse.1 : ℚ) - pos.x) * ((mouse.1 : ℚ) - pos.x) +
          ((mouse.2 : ℚ) - pos.y) * ((mouse.2 : ℚ) - pos.y) = sqDistTo mouse nd := by
        simp [sqDistTo, hpos]
      rcases hinv with ⟨hacc, hh⟩ | ⟨pre, n, post, hh, hacc, hpre, hpost⟩
      · injection hacc with h1 h2
        subst h1
        subst h2
        subst hh
        dsimp only
        rw [hd2]
        have hstart : ScanAcc mouse [nd] (some nd.id, some (sqDistTo mouse nd)) :=
          Or.inr ⟨[], nd, [], by simp, rfl, by simp, by simp⟩
        have h2 := ih [nd] (some nd.id, some (sqDistTo mouse nd)) hstart
        simpa using h2
      · injection hacc with h1 h2
        subst h1
        subst h2
        subst hh
        dsimp only
        rw [hd2]
        by_cases hlt : sqDistTo mouse nd < sqDistTo mouse n
        · rw [if_pos hlt]
          have hstrict : ∀ a ∈ pre ++ n :: post,
              sqDistTo mouse nd < sqDistTo mouse a := by
            intro a ha
            rcases List.mem_append.mp ha with ha1 | ha1
            · exact lt_trans hlt (hpre a ha1)
            · rcases List.mem_cons.mp ha1 with he | ha2
              · rw [he]
                exact hlt
              · exact lt_of_lt_of_le hlt (hpost a ha2)
          have hinv2 : ScanAcc mouse ((pre ++ n :: post) ++ [nd])
              (some nd.id, some (sqDistTo mouse nd)) :=
            Or.inr ⟨pre ++ n :: post, nd, [], by simp, rfl, hstrict, by simp⟩
          have h2 := ih ((pre ++ n :: post) ++ [nd]) _ hinv2
          have hre : ((pre ++ n :: post) ++ [nd]) ++
              rest.filter (fun n => n.position.isSome) =
              (pre ++ n :: post) ++ nd :: rest.filter (fun n => n.position.isSome) := by
            simp
          rw [hre] at h2
          exact h2
        · rw [if_neg hlt]
          have hle : sqDistTo mouse n ≤ sqDistTo mouse nd := le_of_not_lt hlt
          have hpost2 : ∀ a ∈ post ++ [nd], sqDistTo mouse n ≤ sqDistTo mouse a := by
            intro a ha
            rcases List.mem_append.mp ha with ha1 | ha1
            · exact hpost a ha1
            · rw [List.mem_singleton] at ha1
              rw [ha1]
              exact hle
          have hinv2 : ScanAcc mouse (pre ++ n :: (post ++ [nd]))
              (some n.id, some (sqDistTo mouse n)) :=
            Or.inr ⟨pre, n, post ++ [nd], rfl, rfl, hpre, hpost2⟩
          have h2 := ih (pre ++ n :: (post ++ [nd])) _ hinv2
          have hre : (pre ++ n :: (post ++ [nd])) ++
              rest.filter (fun n => n.position.isSome) =
              (pre ++ n :: post) ++ nd :: rest.filter (fun n => n.position.isSome) := by
            simp
          rw [hre] at h2
          exact h2

theorem selectScan_characterize (mouse : Int × Int) (m : EditorModel) :
    ScanAcc mouse (positionedNodes m)
      (selectScan mouse m.iter_drawable_nodes (none, none)) := by
  have h := selectScan_spec mouse m.iter_drawable_nodes [] (none, none)
    (Or.inl ⟨rfl, rfl⟩)
  simpa [positionedNodes] using h

/-- Where a drawable node comes from: an order entry with a present node
and a payload. -/
theorem iter_drawable_mem {m : EditorModel} {n : Node}
    (h : n ∈ m.iter_drawable_nodes) :
    ∃ nid ∈ m.order, alistGet m.nodes nid = some n ∧ n.payload.isSome := by
  simp only [EditorModel.iter_drawable_nodes] at h
  obtain ⟨nid, hnid, hmap⟩ := List.mem_filterMap.mp h
  rcases hg : alistGet m.nodes nid with _ | node
  · rw [hg] at hmap
    exact absurd hmap (by simp)
  · rw [hg] at hmap
    dsimp only at hmap
    rcases hpl : node.payload with _ | pl
    · rw [hpl] at hmap
      simp at hmap
    · rw [hpl] at hmap
      dsimp only at hmap
      injection hmap with hmap
      subst hmap
      exact ⟨nid, hnid, hg, by simp [hpl]⟩

/-- Claim C7: `select_at_position` considers exactly the drawable nodes
with a defined position, in creation order; it returns (and selects) the
id of the first node of minimum squared Euclidean distance to the point
(earliest-created wins ties), and returns none (clearing the selection)
exactly when no such node exists. -/
theorem claim_C7_select_at_position (m : EditorModel) (hR : Reachable m)
    (mouse : Int × Int) :
    ((m.select_at_position mouse).1 = none ↔ positionedNodes m = []) ∧
    ((m.select_at_position mouse).1 = none →
      (m.select_at_position mouse).2.selected_id = none) ∧
    (∀ i, (m.select_at_position mouse).1 = some i →
      (m.select_at_position mouse).2.selected_id = some i ∧
      ∃ pre n post, positionedNodes m = pre ++ n :: post ∧ n.id = i ∧
        n.payload.isSome ∧ n.position.isSome ∧
        (∀ a ∈ pre, sqDistTo mouse n < sqDistTo mouse a) ∧
        (∀ a ∈ post, sqDistTo mouse n ≤ sqDistTo mouse a)) := by
  have hInv := reachable_inv hR
  have hscan := selectScan_characterize mouse m
  have hres1 : (m.select_at_position mouse).1 =
      (selectScan mouse m.iter_drawable_nodes (none, none)).1 := rfl
  have hres2 : (m.select_at_position mouse).2 =
      m.select_node (selectScan mouse m.iter_drawable_nodes (none, none)).1 := rfl
  rcases hscan with ⟨hacc, hemp⟩ | ⟨pre, n, post, hh, hacc, hpre, hpost⟩
  · refine ⟨?_, ?_, ?_⟩
    · rw [hres1, hacc]
      simp [hemp]
    · intro _
      rw [hres2, hacc]
      rfl
    · intro i hi
      rw [hres1, hacc] at hi
      exact absurd hi (by simp)
  · have hbest : (selectScan mouse m.iter_drawable_nodes (none, none)).1 = some n.id := by
      rw [hacc]
    have hnpos : n ∈ positionedNodes m := by
      rw [hh]
      simp
    have hndraw : n ∈ m.iter_drawable_nodes := List.mem_of_mem_filter hnpos
    have hposS : n.position.isSome := by
      have h2 := List.of_mem_filter hnpos
      simpa using h2
    obtain ⟨nid, hnidmem, hget, hpayS⟩ := iter_drawable_mem hndraw
    have hid : n.id = nid := hInv.keyId (nid, n) (alistGet_mem hget)
    have hpos0 : 0 < nid := hInv.orderPos nid hnidmem
    have hsel : m.select_node (some n.id) = { m with selected_id := some n.id } := by
      rw [hid]
      simp only [EditorModel.select_node]
      rw [if_neg (by simp [hget]), if_neg (by rw [hInv.root_id_eq]; omega)]
    refine ⟨?_, ?_, ?_⟩
    · rw [hres1, hbest]
      constructor
      · intro h
        exact absurd h (by simp)
      · intro h
        rw [hh] at h
        exact absurd h (by simp)
    · intro h
      rw [hres1, hbest] at h
      exact absurd h (by simp)
    · intro i hi
      rw [hres1, hbest] at hi
      injection hi with hi
      refine ⟨?_, pre, n, post, hh, hi, hpayS, hposS, hpre, hpost⟩
      rw [hres2, hbest, ← hi, hsel]

theorem claim_C7_witness :
    Reachable demoM1 ∧
    (demoM1.select_at_position (0, 0)).1 = some 1 ∧
    (demoM1.select_at_position (0, 0)).2.selected_id = some 1 := by
  refine ⟨demoM1_reachable, rfl, ?_⟩
  have h := (claim_C7_select_at_position demoM1 demoM1_reachable (0, 0)).2.2 1 rfl
  exact h.1

/-- Claim C8: on a state whose drawable set is empty, `select_at_position`
returns none and leaves the selection as it was (in such a reachable state
the selection is necessarily already clear, and the call keeps it clear). -/
theorem claim_C8_empty_drawable (m : EditorModel) (hR : Reachable m)
    (mouse : Int × Int) (hempty : m.iter_drawable_nodes = []) :
    (m.select_at_position mouse).1 = none ∧
    (m.select_at_position mouse).2.selected_id = m.selected_id := by
  have hInv := reachable_inv hR
  have hselnone : m.selected_id = none := by
    rcases hsel : m.selected_id with _ | s
    · rfl
    · obtain ⟨hs0, ns, hgs⟩ := hInv.selOk s hsel
      have hmem : (s, ns) ∈ m.nodes := alistGet_mem hgs
      have hpay : ns.payload.isSome := hInv.payloadOk (s, ns) hmem hs0
      have hord : s ∈ m.order := hInv.orderComplete (s, ns) hmem hs0
      rcases hpl : ns.payload with _ | pl
      · rw [hpl] at hpay
        simp at hpay
      · have hdraw : ns ∈ m.iter_drawable_nodes := by
          simp only [EditorModel.iter_drawable_nodes]
          refine List.mem_filterMap.mpr ⟨s, hord, ?_⟩
          simp only [hgs, hpl]
        rw [hempty] at hdraw
        exact absurd hdraw (by simp)
  have hbest : selectScan mouse m.iter_drawable_nodes (none, none) = (none, none) := by
    rw [hempty]
    rfl
  constructor
  · show (selectScan mouse m.iter_drawable_nodes (none, none)).1 = none
    rw [hbest]
  · show (m.select_node
        (selectScan mouse m.iter_drawable_nodes (none, none)).1).selected_id = m.selected_id
    rw [hbest, hselnone]
    rfl

theorem claim_C8_witness :
    Reachable (EditorModel.init demoRegistry) ∧
    (EditorModel.init demoRegistry).iter_drawable_nodes = [] ∧
    ((EditorModel.init demoRegistry).select_at_position (0, 0)).1 = none ∧
    ((EditorModel.init demoRegistry).select_at_position (0, 0)).2.selected_id =
      (EditorModel.init demoRegistry).selected_id := by
  refine ⟨Reachable.init demoRegistry, rfl, ?_⟩
  exact claim_C8_empty_drawable (EditorModel.init demoRegistry)
    (Reachable.init demoRegistry) (0, 0) rfl
